import Mathlib

/-!
# Verification of the `a2conf` Apache-configuration parser/tree (src/src/a2conf.ts)

Shallow embedding of the TypeScript module `a2conf.ts`.  JavaScript strings are
modelled as `List Char` (`Str`); the regular expressions of the source are
rendered as explicit recursive searches, each annotated with the regex it
embeds.  The mutable document tree is modelled functionally: the parser's
`parent`-pointer walk becomes an explicit stack of open-section frames (see
`PState`), and the mutation API (`add`) is additionally modelled over an
explicit object heap so that non-modification of the child is a real statement.
-/

/-- JavaScript strings are finite sequences of (UTF-16-ish) characters;
we model them as `List Char`. -/
abbrev Str := List Char

/-- Coerce a Lean string literal into the model's string type. -/
def str (s : String) : Str := s.toList

/-- The characters removed by JavaScript's `String.prototype.trim`
(core whitespace set; exotic Unicode space characters are not modelled,
no input in this development contains them). -/
def isWs (c : Char) : Bool :=
  c == ' ' || c == '\t' || c == '\n' || c == '\r' || c == '\x0b' || c == '\x0c'

/-- The two characters matched by the regex class `[ \t]`. -/
def isSpTab (c : Char) : Bool := c == ' ' || c == '\t'

/-- JavaScript `s.trim()`. -/
def trim (s : Str) : Str := List.rdropWhile isWs (s.dropWhile isWs)

/-- JavaScript `s.split(sep)` for a one-character separator: every occurrence
splits, empty components are kept. -/
def splitOnChar (sep : Char) : Str → List Str
  | [] => [[]]
  | c :: t =>
    if c == sep then [] :: splitOnChar sep t
    else
      match splitOnChar sep t with
      | h :: r => (c :: h) :: r
      | [] => [[c]]

/-- Whether `sub` occurs contiguously inside `s`
(JavaScript `s.includes(sub)`). -/
def hasSub (s sub : Str) : Bool :=
  match s with
  | [] => sub.isEmpty
  | _ :: t => sub.isPrefixOf s || hasSub t sub

/-- JavaScript `s.toLowerCase()` (ASCII case folding suffices here). -/
def lowerStr (s : Str) : Str := s.map Char.toLower

/-- `' '.repeat(4)`, the `prefix` field every node is constructed with. -/
def indentUnit : Str := str "    "

/-- `this.prefix.repeat(depth)`: the indentation for depth `depth`. -/
def indentRepeat (depth : Nat) : Str := (List.replicate depth indentUnit).flatten

section StrLemmas

theorem hasSub_iff_infix_rel (s sub : Str) : hasSub s sub = true ↔ sub <:+: s := by
  induction s with
  | nil =>
    simp only [hasSub, List.isEmpty_iff]
    constructor
    · rintro rfl; exact List.infix_rfl
    · intro h; exact List.eq_nil_of_infix_nil h
  | cons c t ih =>
    simp only [hasSub, Bool.or_eq_true, ih, List.isPrefixOf_iff_prefix]
    constructor
    · rintro (h | h)
      · exact h.isInfix
      · exact h.trans (List.suffix_cons c t).isInfix
    · intro h
      rcases List.infix_cons_iff.mp h with h | h
      · exact Or.inl h
      · exact Or.inr h

theorem hasSub_of_infix_rel {s t sub : Str} (hst : s <:+: t)
    (h : hasSub s sub = true) : hasSub t sub = true := by
  rw [hasSub_iff_infix_rel] at h ⊢
  exact h.trans hst

theorem not_hasSub_of_infix_rel {s t sub : Str} (hst : s <:+: t)
    (h : hasSub t sub = false) : hasSub s sub = false := by
  cases hs : hasSub s sub with
  | false => rfl
  | true => rw [hasSub_of_infix_rel hst hs] at h; exact absurd h (by decide)

theorem trim_infix_rel (s : Str) : trim s <:+: s :=
  (List.rdropWhile_prefix _ _).isInfix.trans (List.dropWhile_suffix isWs).isInfix

theorem isSpTab_eq_false_of_ws {c : Char} (h : isWs c = false) :
    isSpTab c = false := by
  unfold isWs at h
  unfold isSpTab
  rcases Bool.or_eq_false_iff.mp h with ⟨h5, _⟩
  rcases Bool.or_eq_false_iff.mp h5 with ⟨h4, _⟩
  rcases Bool.or_eq_false_iff.mp h4 with ⟨h3, _⟩
  rcases Bool.or_eq_false_iff.mp h3 with ⟨h2, _⟩
  rcases Bool.or_eq_false_iff.mp h2 with ⟨h1, htab⟩
  simp [h1, htab]

theorem trim_cons_head {s : Str} {c : Char} {t : Str} (h : trim s = c :: t) :
    isWs c = false := by
  obtain ⟨q, hq⟩ := List.rdropWhile_prefix isWs (s.dropWhile isWs)
  have hq2 : trim s ++ q = s.dropWhile isWs := hq
  have hu : s.dropWhile isWs = c :: (t ++ q) := by rw [← hq2, h]; simp
  have hne : s.dropWhile isWs ≠ [] := by rw [hu]; simp
  have hhead := List.head_dropWhile_not isWs s hne
  have hc : (s.dropWhile isWs).head hne = c := by simp [hu]
  rw [hc] at hhead
  simpa using hhead

theorem trim_last_not_ws {s : Str} (h : trim s ≠ []) :
    isWs ((trim s).getLast h) = false := by
  have := List.rdropWhile_last_not isWs (s.dropWhile isWs) h
  simpa using this

theorem trim_getLast_not_ws {s : Str} {c : Char}
    (h : (trim s).getLast? = some c) : isWs c = false := by
  have hne : trim s ≠ [] := by intro e; rw [e] at h; simp at h
  have hl := List.getLast?_eq_getLast (trim s) hne
  rw [hl] at h
  have := trim_last_not_ws hne
  rw [Option.some_inj.mp h] at this
  exact this

theorem trim_eq_self {u : Str}
    (h1 : ∀ c, u.head? = some c → isWs c = false)
    (h2 : ∀ c, u.getLast? = some c → isWs c = false) : trim u = u := by
  unfold trim
  have ha : List.dropWhile isWs u = u := by
    apply List.dropWhile_eq_self_iff.mpr
    intro hl hc
    have hne : u ≠ [] := by intro e; rw [e] at hl; simp at hl
    have hg : u.get ⟨0, hl⟩ = u.head hne := by
      cases u
      · simp at hl
      · rfl
    have hh : u.head? = some (u.head hne) := List.head?_eq_head hne
    rw [hg, h1 _ hh] at hc
    exact absurd hc (by decide)
  rw [ha]
  apply List.rdropWhile_eq_self_iff.mpr
  intro hl hc
  have hh : u.getLast? = some (u.getLast hl) := List.getLast?_eq_getLast u hl
  rw [h2 _ hh] at hc
  exact absurd hc (by decide)

theorem trim_trim (s : Str) : trim (trim s) = trim s := by
  apply trim_eq_self
  · intro c hc
    rcases he : trim s with _ | ⟨d, t⟩
    · rw [he] at hc; simp at hc
    · rw [he] at hc
      simp only [List.head?_cons, Option.some_inj] at hc
      rw [← hc]
      exact trim_cons_head he
  · intro c hc
    exact trim_getLast_not_ws hc

end StrLemmas

/-!
## The `Node` constructor (a2conf.ts lines 45-133)

A node's scalar fields.  `content` (children) and `lastChild` live outside this
structure: the pure document tree `NodeV` pairs an `NData` with a child list,
and the heap model (`HNode`, used for the `add` claims) carries them explicitly.
`parent` is a back-pointer produced by mutation; the parser models it as an
explicit stack (`PState`), the heap model stores it as an id.
`path`/`line` (provenance) and `includes` (a per-call flag, passed as a
parameter to the read functions here) are not carried. -/
structure NData where
  raw : Option Str
  name : Str
  sectionName : Option Str  -- `section` in the source (`section` is a Lean keyword)
  cmd : Option Str
  args : Str
  suffix : Option Str
  deriving Repr, DecidableEq

/-- `isOpen()` (lines 117-124): the regex `^[ \t]*<(?!\/)` — after leading
spaces/tabs, a `<` not followed by `/` (a lookahead also satisfied at the end
of the string). -/
def isOpen (raw : Str) : Bool :=
  match raw.dropWhile isSpTab with
  | [] => false
  | c :: rest =>
    c == '<' &&
      (match rest with
       | [] => true
       | d :: _ => !(d == '/'))

/-- One attempt of the unanchored search for `[ \t]*<\/` at the current
position: since `[ \t]*` may match the empty string, the attempt succeeds
exactly when, after optional spaces/tabs, the string continues `</`. -/
def closeAt (s : Str) : Bool :=
  match s.dropWhile isSpTab with
  | c1 :: c2 :: _ => c1 == '<' && c2 == '/'
  | _ => false

/-- `isClose()` (lines 126-133): unanchored search for the regex `[ \t]*<\/`
(the engine retries the pattern at every position). -/
def isClose (raw : Str) : Bool :=
  match raw with
  | [] => false
  | _ :: t => closeAt raw || isClose t

theorem isClose_true_iff (raw : Str) :
    isClose raw = true ↔ ∃ u, u <:+ raw ∧ closeAt u = true := by
  induction raw with
  | nil =>
    simp only [isClose]
    constructor
    · intro h; exact absurd h (by decide)
    · rintro ⟨u, hu, hc⟩
      rw [List.suffix_nil.mp hu] at hc
      exact absurd hc (by decide)
  | cons c t ih =>
    simp only [isClose, Bool.or_eq_true, ih]
    constructor
    · rintro (h | ⟨u, hu, hc⟩)
      · exact ⟨c :: t, List.suffix_rfl, h⟩
      · exact ⟨u, hu.trans (List.suffix_cons c t), hc⟩
    · rintro ⟨u, hu, hc⟩
      rcases List.suffix_cons_iff.mp hu with rfl | hu
      · exact Or.inl hc
      · exact Or.inr ⟨u, hu, hc⟩

theorem closeAt_infix_rel {u : Str} (h : closeAt u = true) : str "</" <:+: u := by
  unfold closeAt at h
  rcases hd : u.dropWhile isSpTab with _ | ⟨c, v⟩
  · rw [hd] at h; exact absurd h (by decide)
  · rcases v with _ | ⟨d, w⟩
    · rw [hd] at h; exact absurd h (fun hh => nomatch hh)
    · rw [hd] at h
      simp only [Bool.and_eq_true, beq_iff_eq] at h
      obtain ⟨rfl, rfl⟩ := h
      have hsuf : u.dropWhile isSpTab <:+ u := List.dropWhile_suffix isSpTab
      rw [hd] at hsuf
      exact List.IsInfix.trans (⟨[], w, rfl⟩ : str "</" <:+: '<' :: '/' :: w) hsuf.isInfix

theorem closeAt_of_prefix {u : Str} (h : str "</" <+: u) : closeAt u = true := by
  rcases h with ⟨w, hw⟩
  have hu : u = '<' :: '/' :: w := by rw [← hw]; rfl
  subst hu
  have hlt : isSpTab '<' = false := by decide
  simp [closeAt, List.dropWhile_cons, hlt]

/-- The unanchored search `/[ \t]*<\//` succeeds exactly when the string
contains the substring `</` — the pattern is not anchored to the start of the
line. -/
theorem isClose_eq_hasSub (raw : Str) : isClose raw = hasSub raw (str "</") := by
  have hiff : isClose raw = true ↔ hasSub raw (str "</") = true := by
    rw [isClose_true_iff raw, hasSub_iff_infix_rel raw (str "</")]
    constructor
    · rintro ⟨u, hu, hc⟩
      exact (closeAt_infix_rel hc).trans hu.isInfix
    · intro h
      rcases List.infix_iff_prefix_suffix.mp h with ⟨t, hp, hs⟩
      exact ⟨t, hs, closeAt_of_prefix hp⟩
  cases hi : isClose raw <;> cases hs : hasSub raw (str "</") <;> simp_all

/-- Characters allowed in a section name: the regex class `[^ >]`. -/
def notSpGt (c : Char) : Bool := !(c == ' ' || c == '>')

/-- The regex class `[^>]`. -/
def notGt (c : Char) : Bool := !(c == '>')

/-- The regex class `[^ \t]`. -/
def notSpTab (c : Char) : Bool := !(c == ' ' || c == '\t')

/-- The regex class `[^#]`. -/
def notHash (c : Char) : Bool := !(c == '#')

/-- Unanchored search for `[ \t]*<([^ >]+)([^>]*)` (line 90), returning the two
capture groups.  Since `[ \t]*` may match the empty string and a space/tab run
never contains `<`, the leftmost match is anchored at the first `<` that is
immediately followed by at least one character outside `[ >]`; group 1 is the
maximal `[^ >]` run after that `<`, group 2 the maximal `[^>]` run after it. -/
def secOpenMatch : Str → Option (Str × Str)
  | [] => none
  | c :: rest =>
    if c == '<' then
      let sec := rest.takeWhile notSpGt
      if sec.isEmpty then secOpenMatch rest
      else some (sec, (rest.drop sec.length).takeWhile notGt)
    else secOpenMatch rest

/-- Unanchored search for `[ \t]*<(\/[^ >]+)([^>]*)` (line 96): like
`secOpenMatch` but the `<` must be followed by `/` and then the name run;
group 1 includes the leading `/`. -/
def secCloseMatch : Str → Option (Str × Str)
  | [] => none
  | c :: rest =>
    if c == '<' then
      match rest with
      | [] => none
      | d :: rest2 =>
        if d == '/' then
          let nm := rest2.takeWhile notSpGt
          if nm.isEmpty then secCloseMatch rest
          else some ('/' :: nm, (rest2.drop nm.length).takeWhile notGt)
        else secCloseMatch rest
    else secCloseMatch rest

/-- `raw.split('#')[0]`: the text before the first `#` (the whole string if
there is none). -/
def beforeHash (s : Str) : Str := s.takeWhile notHash

/-- The match of `(#.*)$` (lines 68-73): from the first `#` to the end of the
line; the empty string when the line has no `#` (the source then stores `''`). -/
def suffixOf (s : Str) : Str := s.dropWhile notHash

/-- Unanchored search for `[ \t]*([^ \t]+)[ \t]*([^#]*)` (line 104): skip
spaces/tabs, capture the maximal `[^ \t]` run, skip spaces/tabs, capture the
maximal `[^#]` run.  Fails only when the input has no character outside
`[ \t]`. -/
def tokenizeCmd (cmdline : Str) : Option (Str × Str) :=
  match cmdline.dropWhile isSpTab with
  | [] => none
  | s =>
    let c := s.takeWhile notSpTab
    some (c, ((s.drop c.length).dropWhile isSpTab).takeWhile notHash)

/-- Name guessing (lines 78-83): `raw.trim().split(' ')[0]`, with `>` appended
when the token starts with `<` but does not end with `>`. -/
def nameTok (raw : Str) : Str := (trim raw).takeWhile (fun c => !(c == ' '))

def nameGuess (raw : Str) : Str :=
  if (nameTok raw).headD ' ' == '<' && !((nameTok raw).getLastD 'x' == '>') then
    nameTok raw ++ ['>']
  else nameTok raw

/-- The `Node` constructor (lines 45-115) applied to a present `raw` line.
The `tokenizeCmd ... = none` branch is the `throw new Error('Cannot parse')`
of line 106; `mkNDataThrows_eq_false` below proves it unreachable (a nonempty
trimmed string always contains a `[^ \t]` character), so the total model
returns the untouched defaults there. -/
def mkNData (raw : Str) : NData :=
  let sfx := suffixOf raw
  let nm := nameGuess raw
  if isOpen raw then
    match secOpenMatch raw with
    | some (sec, a) =>
      { raw := some raw, name := nm, sectionName := some sec, cmd := none,
        args := trim a, suffix := some sfx }
    | none =>
      { raw := some raw, name := nm, sectionName := none, cmd := none,
        args := [], suffix := some sfx }
  else if isClose raw then
    match secCloseMatch raw with
    | some (sec, _) =>
      { raw := some raw, name := nm, sectionName := some sec, cmd := none,
        args := [], suffix := some sfx }
    | none =>
      { raw := some raw, name := nm, sectionName := none, cmd := none,
        args := [], suffix := some sfx }
  else
    let cmdline := trim (beforeHash raw)
    match tokenizeCmd cmdline with
    | some (c, a) =>
      if cmdline.isEmpty then
        { raw := some raw, name := nm, sectionName := none, cmd := none,
          args := [], suffix := some sfx }
      else
        { raw := some raw, name := nm, sectionName := none, cmd := some c,
          args := trim a, suffix := some sfx }
    | none =>
      { raw := some raw, name := nm, sectionName := none, cmd := none,
        args := [], suffix := some sfx }

/-- Whether the constructor would reach `throw new Error('Cannot parse: ...')`
(line 106): a non-open, non-close line whose pre-`#` part trims to a nonempty
string on which the command regex fails. -/
def mkNDataThrows (raw : Str) : Bool :=
  !isOpen raw && !isClose raw && !(trim (beforeHash raw)).isEmpty &&
    (tokenizeCmd (trim (beforeHash raw))).isNone

/-- The regex of line 104 always matches a nonempty trimmed command line, so
the syntax-error branch of the constructor is unreachable: no input line ever
raises `Cannot parse`. -/
theorem mkNDataThrows_eq_false (raw : Str) : mkNDataThrows raw = false := by
  unfold mkNDataThrows
  rcases h : trim (beforeHash raw) with _ | ⟨c, t⟩
  · simp
  · have hc : isWs c = false := trim_cons_head h
    have hdw : (c :: t).dropWhile isSpTab = c :: t := by
      rw [List.dropWhile_cons]
      simp [isSpTab_eq_false_of_ws hc]
    simp [tokenizeCmd, hdw]

/-- The root node of a parse: `new Node()` — no raw text, name `#root`,
null suffix (lines 45-86). -/
def rootData : NData :=
  { raw := none, name := str "#root", sectionName := none, cmd := none,
    args := [], suffix := none }

/-!
## The document tree and the serializer (`dump`, lines 401-447)
-/

/-- A pure view of the mutable node graph: scalar fields plus the owned,
ordered child list (`content`). -/
inductive NodeV where
  | mk (data : NData) (content : List NodeV)
  deriving Repr

def NodeV.data : NodeV → NData
  | .mk d _ => d

def NodeV.content : NodeV → List NodeV
  | .mk _ c => c

/-- What claim C1 compares between two trees: directive name (`cmd`), section
name, `args`, and the child nesting — everything except raw text, guessed
name, suffix and provenance. -/
inductive Skel where
  | mk (cmd : Option Str) (sectionName : Option Str) (args : Str) (kids : List Skel)
  deriving Repr

mutual

def skel : NodeV → Skel
  | .mk d c => Skel.mk d.cmd d.sectionName d.args (skelList c)

def skelList : List NodeV → List Skel
  | [] => []
  | n :: ns => skel n :: skelList ns

end

mutual

def countSkel : Skel → Nat
  | .mk _ _ _ kids => 1 + countSkelList kids

def countSkelList : List Skel → Nat
  | [] => 0
  | s :: ss => countSkel s + countSkelList ss

end

/-- JavaScript truthiness of a nullable string: non-null and nonempty. -/
def truthyStr : Option Str → Bool
  | some s => !s.isEmpty
  | none => false

/-- `this.children.length` (lines 424 and 439): `children` here is a method
reference, not a call, so `.length` is the function's arity — the number of
declared parameters before the first one with a default value.
`children(name?, { recursive } = { recursive: false })` has arity 1, so the
guard `this.children.length > 0` is always true: sections emit their close
tag even with no children, and the root/comment branch always recurses. -/
def childrenMethodArity : Nat := 1

mutual

/-- `dump(depth)` (lines 401-447), producing the list of emitted lines
(each pushed entry ends in `\n`; here the newline is added by `joinLines`). -/
def dumpLines : NodeV → Nat → List Str
  | .mk d kids, depth =>
    let padded : Str :=
      match d.suffix with
      | some s => if s.isEmpty then [] else ' ' :: s
      | none => []
    if truthyStr d.cmd then
      [indentRepeat depth ++ d.cmd.getD [] ++ ' ' :: d.args ++ padded]
    else if truthyStr d.sectionName then
      let s := d.sectionName.getD []
      -- "last section element should have depth-1"; JS `' '.repeat(-1)` would
      -- throw, the Nat subtraction truncates at 0 (no theorem below touches a
      -- tree whose stored section name starts with `/` at depth 0)
      let ld := if s.headD 'x' == '/' then depth - 1 else depth
      let openL :=
        if !d.args.isEmpty then
          indentRepeat ld ++ '<' :: s ++ ' ' :: d.args ++ '>' :: padded
        else
          indentRepeat ld ++ '<' :: s ++ '>' :: padded
      openL ::
        (if childrenMethodArity > 0 then
          dumpLinesList kids (depth + 1)
            ++ [indentRepeat ld ++ '<' :: '/' :: s ++ ['>']]
        else [])
    else
      (if truthyStr d.suffix then [indentRepeat depth ++ d.suffix.getD []]
       else if truthyStr d.raw then [([] : Str)]
       else []) ++
      (if childrenMethodArity > 0 then dumpLinesList kids depth
       else [])

/-- `for (const d of this.content) output.push(...d.dump(...))`. -/
def dumpLinesList : List NodeV → Nat → List Str
  | [], _ => []
  | n :: ns, depth => dumpLines n depth ++ dumpLinesList ns depth

end

/-- `output.join('')` over entries that each end in a newline. -/
def joinLines (ls : List Str) : Str := (ls.map (fun l => l ++ ['\n'])).flatten

/-- `dump(depth)` as a single string. -/
def dump (n : NodeV) (depth : Nat) : Str := joinLines (dumpLines n depth)

/-!
## The parser (`readText`, lines 275-323; `readFile`, lines 325-380)

The JS parser mutates a tree through a moving `parent` pointer.  Functional
rendering: a stack of open-section frames above the root.  Two subtleties of
the source are modelled exactly:

* An unmatched close at the root runs `parent = parent?.parent`, leaving
  `parent` **undefined** (the root has no parent).  From then on
  `parent?.add(node)` is a no-op, while `parent = node` on an open line starts
  an orphan chain that is never attached to the root.  The `det` field tracks
  this mode: `some d` means the current parent is `undefined` (`d = 0`) or an
  orphan chain of depth `d`; nothing in that mode ever reaches the result tree
  (include expansion still does — it targets `this`, the root).

* `this.extend(subNode)` for an include appends the included children to the
  **root** even while an inner section is open.  A frame's completed node is
  therefore placed into the root child list at *open* time as a `Slot.hole`
  and filled at close time, so extends that happen in between land after it,
  as in the source.  For non-root frames no out-of-band append can occur, so
  placing the completed child at close time preserves order.
-/

structure Frame where
  data : NData
  kids : List NodeV
  deriving Repr

inductive Slot where
  | node (n : NodeV)
  | hole
  deriving Repr

structure PState where
  rootKids : List Slot
  stack : List Frame
  det : Option Nat
  deriving Repr

def initPState : PState := { rootKids := [], stack := [], det := none }

/-- Replace the first (unique) hole by the completed top-level section. -/
def fillHole : List Slot → NodeV → List Slot
  | [], _ => []
  | Slot.hole :: rest, n => Slot.node n :: rest
  | s :: rest, n => s :: fillHole rest n

def closeFrame (f : Frame) : NodeV := NodeV.mk f.data f.kids

def isOpenD (d : NData) : Bool :=
  match d.raw with
  | some r => isOpen r
  | none => false

def isCloseD (d : NData) : Bool :=
  match d.raw with
  | some r => isClose r
  | none => false

/-- `parent?.add(node)` for a plain line. -/
def addStep (st : PState) (d : NData) : PState :=
  match st.det with
  | some _ => st
  | none =>
    match st.stack with
    | f :: fs => { st with stack := { f with kids := f.kids ++ [NodeV.mk d []] } :: fs }
    | [] => { st with rootKids := st.rootKids ++ [Slot.node (NodeV.mk d [])] }

/-- `parent?.add(node); parent = node` for a section-open line. -/
def openStep (st : PState) (d : NData) : PState :=
  match st.det with
  | some k => { st with det := some (k + 1) }
  | none =>
    match st.stack with
    | f :: fs => { st with stack := ⟨d, []⟩ :: f :: fs }
    | [] => { st with rootKids := st.rootKids ++ [Slot.hole], stack := [⟨d, []⟩] }

/-- `parent = parent?.parent` for a section-close line (the node is not
added).  At the root the walk goes past the root to `undefined`
(`det := some 0`). -/
def closeStep (st : PState) : PState :=
  match st.det with
  | some k => { st with det := some (k - 1) }
  | none =>
    match st.stack with
    | f :: g :: fs => { st with stack := { g with kids := g.kids ++ [closeFrame f] } :: fs }
    | [f] => { st with rootKids := fillHole st.rootKids (closeFrame f), stack := [] }
    | [] => { st with det := some 0 }

/-- Lines 292-300 / 348-356: dispatch on `isOpen` / `isClose`. -/
def treeStep (st : PState) (d : NData) : PState :=
  if isOpenD d then openStep st d
  else if isCloseD d then closeStep st
  else addStep st d

/-- The filesystem collaborators (section 6 of the spec): `existsSync`,
`lstatSync(..).isDirectory()` (where `none` models the `lstatSync` throw on a
missing path), `glob.sync`, and the line reader (`none`: the read fails). -/
structure Env where
  existsSync : Str → Bool
  lstatIsDir : Str → Option Bool
  globSync : Str → List Str
  readFileLines : Str → Option (List Str)

/-- `path.join(a, b)` without the normalization Node.js applies (none of the
paths used in the theorems below need normalizing). -/
def pathJoin (a b : Str) : Str := a ++ '/' :: b

/-- `path.dirname` (up to the last `/`; `.` when there is none). -/
def dirname (p : Str) : Str :=
  let pre := List.rdropWhile (fun c => !(c == '/')) p
  if pre.isEmpty then str "."
  else if pre.dropLast.isEmpty then str "/"
  else pre.dropLast

/-- `['include', 'includeoptional'].includes(node.name.toLowerCase())`. -/
def isIncludeName (d : NData) : Bool :=
  lowerStr d.name == str "include" || lowerStr d.name == str "includeoptional"

/-- Parse-aborting errors.  `enoent` models an uncaught `lstatSync` /
stream-open throw; `fuelOut` is a model artifact for include recursion
(the JS recurses unboundedly on cyclic includes). -/
inductive PErr where
  | enoent (p : Str)
  | fuelOut
  deriving Repr, DecidableEq

/-- `this.extend(subNode)` (line 316/373): appends the included tree's
children to the root currently being built. -/
def extendStep (st : PState) (sub : NodeV) : PState :=
  { st with rootKids := st.rootKids ++ sub.content.map Slot.node }

/-- Fold an open frame into the frames below it (end-of-input unwinding):
each still-open section becomes the last child of the frame beneath. -/
def collapseStack : Frame → List Frame → NodeV
  | f, [] => closeFrame f
  | f, g :: fs => collapseStack { g with kids := g.kids ++ [closeFrame f] } fs

/-- End of input: sections left open keep their accumulated children (in the
source the tree is already linked; here the remaining frames fold up, and the
bottom one fills the root hole). -/
def unwindStack (rk : List Slot) : List Frame → List Slot
  | [] => rk
  | f :: fs => fillHole rk (collapseStack f fs)

def slotNode : Slot → NodeV
  | Slot.node n => n
  | Slot.hole => NodeV.mk rootData []

def finalizeState (st : PState) : NodeV :=
  NodeV.mk rootData ((unwindStack st.rootKids st.stack).map slotNode)

/-- The loop over `glob.sync` matches (lines 312-320 / 369-377): each matched
file is parsed with a fresh root (`new Node({ path })`, `includes` defaulting
to true) inside `try`; a failure only warns and the file is skipped.
`rf` is the recursive file parser (`readFileE` at the next-smaller fuel). -/
def globGo (rf : Str → Except PErr NodeV) : List Str → PState → PState
  | [], st => st
  | p :: ps, st =>
    match rf p with
    | Except.ok sub => globGo rf ps (extendStep st sub)
    | Except.error _ => globGo rf ps st

/-- Include handling of `readFile` (lines 358-378): resolve against the
directory of the current file; `lstatSync(fullpath)` is **not** guarded by
`existsSync` and is outside the `try`, so a missing path aborts the parse. -/
def fileIncludeStep (rf : Str → Except PErr NodeV) (env : Env) (filename : Str)
    (st : PState) (d : NData) : Except PErr PState :=
  let fullpath := pathJoin (dirname filename) d.args
  match env.lstatIsDir fullpath with
  | none => Except.error (PErr.enoent fullpath)
  | some isDir =>
    let fullpath2 := if isDir then pathJoin fullpath (str "*") else fullpath
    Except.ok (globGo rf (env.globSync fullpath2) st)

/-- One line of `readFile` (lines 334-378). -/
def fileLineStep (rf : Str → Except PErr NodeV) (env : Env) (inc : Bool)
    (filename : Str) (st : PState) (line : Str) : Except PErr PState :=
  let l := trim line
  if l.isEmpty then Except.ok st
  else
    let d := mkNData l
    let st1 := treeStep st d
    if inc && isIncludeName d then fileIncludeStep rf env filename st1 d
    else Except.ok st1

def fileLinesGo (rf : Str → Except PErr NodeV) (env : Env) (inc : Bool)
    (filename : Str) : List Str → PState → Except PErr PState
  | [], st => Except.ok st
  | l :: ls, st =>
    match fileLineStep rf env inc filename st l with
    | Except.error e => Except.error e
    | Except.ok st2 => fileLinesGo rf env inc filename ls st2

/-- `readFile` (lines 325-380) on a fresh root, as used by `fromFile` and by
include expansion.  Structural recursion on the fuel; nested include parses
run at the next-smaller fuel (the source recurses unboundedly on cyclic
includes — concrete theorems choose ample fuel). -/
def readFileE : Nat → Env → Bool → Str → Except PErr NodeV
  | 0, _, _, _ => Except.error PErr.fuelOut
  | fuel + 1, env, inc, filename =>
    match env.readFileLines filename with
    | none => Except.error (PErr.enoent filename)
    | some lines =>
      match fileLinesGo (fun p => readFileE fuel env true p) env inc filename
          lines initPState with
      | Except.error e => Except.error e
      | Except.ok st => Except.ok (finalizeState st)
termination_by structural fuel _ _ _ => fuel

/-- Include handling of `readText` (lines 302-321): the path is the node's
`args` as given (`path.join` with a single argument only normalizes);
`lstatSync` **is** guarded by `existsSync` here, so nothing in text mode
throws. -/
def textIncludeStep (env : Env) (fuel : Nat) (st : PState) (d : NData) : PState :=
  let fullpath := d.args
  let fullpath2 :=
    if env.existsSync fullpath && (env.lstatIsDir fullpath).getD false then
      pathJoin fullpath (str "*")
    else fullpath
  globGo (fun p => readFileE fuel env true p) (env.globSync fullpath2) st

/-- One line of `readText` (lines 279-322). -/
def textLineStep (env : Env) (fuel : Nat) (inc : Bool) (st : PState) (line : Str) : PState :=
  let l := trim line
  if l.isEmpty then st
  else
    let d := mkNData l
    let st1 := treeStep st d
    if inc && isIncludeName d then textIncludeStep env fuel st1 d else st1

/-- `fromText` (lines 492-496): a fresh root, then `readText` over
`text.split('\n')`. -/
def readTextE (env : Env) (inc : Bool) (fuel : Nat) (text : Str) : NodeV :=
  finalizeState ((splitOnChar '\n' text).foldl (textLineStep env fuel inc) initPState)

/-- An environment in which no glob pattern matches any file; with it, include
expansion never contributes anything (text mode also never consults the other
fields in that case). -/
def emptyEnv : Env :=
  { existsSync := fun _ => false
  , lstatIsDir := fun _ => none
  , globSync := fun _ => []
  , readFileLines := fun _ => none }

/-!
## The mutation API

`add` (lines 135-147) is modelled over an explicit object heap (`Heap`): node
ids index the heap, `parent`/`lastChild` are stored ids, so the claim "`add`
sets the child's parent" is a real statement about which objects a call
writes.  `insert`/`set`/`children` (lines 154-259) only ever read or write a
node and its direct children, so they are modelled on `ONode`, a tree carrying
the WeakMap identity (`id`, lines 7-19) as an explicit `nid`. -/

structure HNode where
  parent : Option Nat
  content : List Nat
  lastChild : Option Nat
  deriving Repr, DecidableEq

abbrev Heap := List HNode

/-- `add(child)` (lines 135-147): `this.content.push(child);
this.lastChild = child`.  The only object written is `this` (id `p`); the
`instanceof Node` guard throws for non-nodes (not representable in the typed
model) and the `!this.content` re-initialization is unreachable (the
constructor always sets `content = []`). -/
def addH (h : Heap) (p c : Nat) : Heap :=
  match h.get? p with
  | some n => h.set p { n with content := n.content ++ [c], lastChild := some c }
  | none => h

/-- Identity-carrying node for the `insert`/`set`/`children` model. -/
inductive ONode where
  | mk (nid : Nat) (data : NData) (content : List ONode)
  deriving Repr

def ONode.nid : ONode → Nat
  | .mk i _ _ => i

def ONode.data : ONode → NData
  | .mk _ d _ => d

def ONode.content : ONode → List ONode
  | .mk _ _ c => c

def ONode.setContent : ONode → List ONode → ONode
  | .mk i d _, c => .mk i d c

/-- `property.args = value` through an alias into `content`. -/
def ONode.setArgs : ONode → Str → ONode
  | .mk i d c, v => .mk i { d with args := v } c

/-- `c.name.toLowerCase() === name.toLowerCase()`. -/
def nameMatchesO (c : ONode) (name : Str) : Bool :=
  lowerStr c.data.name == lowerStr name

/-- `children(name)` (lines 238-259) with the default `recursive: false`, the
form every caller inside the module uses: the direct children whose name
matches case-insensitively. -/
def childrenO (t : ONode) (name : Str) : List ONode :=
  t.content.filter (fun c => nameMatchesO c name)

/-- `getIndex` (lines 155-169): `forEach` writing `idx = i + 1` on every
match, so the final value is one past the **last** matching index
(`-1` when nothing matches). -/
def getIndexGo (after : Sum ONode Str) : List ONode → Nat → Int → Int
  | [], _, idx => idx
  | c :: rest, i, idx =>
    let m : Bool :=
      match after with
      | Sum.inl a => c.nid == a.nid
      | Sum.inr s => lowerStr c.data.name == lowerStr s
    getIndexGo after rest (i + 1) (if m then (i : Int) + 1 else idx)

def getIndex (content : List ONode) (after : Sum ONode Str) : Int :=
  getIndexGo after content 0 (-1)

/-- `new Node({ raw })` for the raw-text shorthand of `insert`, with a fresh
identity. -/
def mkONode (fresh : Nat) (raw : Str) : ONode := ONode.mk fresh (mkNData raw) []

/-- `insert(childNode, afterNode?)` (lines 154-206), returning the updated
parent and the returned (inserted) node.  The `!this.content` early return
(line 189) is unreachable — the constructor initializes `content` to `[]`,
which is truthy in JS.  The `after` list is a singleton or empty, so its
`reverse()` has no effect. -/
def insertO (t : ONode) (childSpec : Sum ONode Str) (afterSpec : Option (Sum ONode Str))
    (fresh : Nat) : ONode × ONode :=
  let newNode :=
    match childSpec with
    | Sum.inl n => n
    | Sum.inr s => mkONode fresh s
  match afterSpec with
  | some a =>
    let idx := getIndex t.content a
    if idx > -1 then
      (t.setContent (t.content.take idx.toNat ++ newNode :: t.content.drop idx.toNat), newNode)
    else
      (t.setContent (t.content ++ [newNode]), newNode)
  | none => (t.setContent (t.content ++ [newNode]), newNode)

/-- `set(name, value)` (lines 208-217): insert `name value` when no direct
child matches, otherwise rewrite `args` on every matching direct child. -/
def setO (t : ONode) (name v : Str) (fresh : Nat) : ONode :=
  if (childrenO t name).isEmpty then
    (insertO t (Sum.inr (name ++ ' ' :: v)) none fresh).1
  else
    t.setContent (t.content.map (fun c => if nameMatchesO c name then c.setArgs v else c))

/-!
## Queries on the parsed tree (`findVHost`, lines 462-483)
-/

def nameMatchesV (c : NodeV) (name : Str) : Bool :=
  lowerStr c.data.name == lowerStr name

/-- `children(name)` with the default `recursive: false`, on the pure tree. -/
def childrenV (t : NodeV) (name : Str) : List NodeV :=
  t.content.filter (fun c => nameMatchesV c name)

/-- `first(name)` (lines 261-269): head of `children(name)` or absent. -/
def firstV (t : NodeV) (name : Str) : Option NodeV :=
  (childrenV t name).head?

/-- `getAllHostnames` (lines 463-471): the first `ServerName`'s whole `args`
(`undefined` — `none` — when there is none), then every `' '`-split token of
every `ServerAlias`'s `args`. -/
def getAllHostnames (vhost : NodeV) : List (Option Str) :=
  ((firstV vhost (str "ServerName")).map (fun n => n.data.args)) ::
    (childrenV vhost (str "ServerAlias")).flatMap
      (fun al => (splitOnChar ' ' al.data.args).map some)

def findVHostGo (hostname : Str) (arg : Option Str) : List NodeV → Option NodeV
  | [] => none
  | v :: vs =>
    if (match arg with
        | some a => !a.isEmpty && !hasSub v.data.args a
        | none => false) then
      findVHostGo hostname arg vs
    else if (getAllHostnames v).contains (some hostname) then some v
    else findVHostGo hostname arg vs

/-- `findVHost(hostname, arg?)` (lines 462-483): scan the direct
`<VirtualHost>` children in order; skip those whose `args` does not contain a
truthy `arg` as a substring; return the first whose candidate hostnames
contain `hostname` exactly, else `null`. -/
def findVHost (t : NodeV) (hostname : Str) (arg : Option Str) : Option NodeV :=
  findVHostGo hostname arg (childrenV t (str "<VirtualHost>"))

/-!
## String lemmas for the constructor characterizations
-/

theorem takeWhile_all {p : Char → Bool} {x : Str} (h : ∀ c ∈ x, p c = true) :
    x.takeWhile p = x := by
  induction x with
  | nil => rfl
  | cons c t ih =>
    rw [List.takeWhile_cons, h c (by simp)]
    simp only [ite_true]
    rw [ih (fun d hd => h d (by simp [hd]))]

theorem takeWhile_all_append {p : Char → Bool} {x y : Str}
    (h : ∀ c ∈ x, p c = true) : (x ++ y).takeWhile p = x ++ y.takeWhile p := by
  induction x with
  | nil => rfl
  | cons c t ih =>
    simp only [List.cons_append, List.takeWhile_cons, h c (by simp)]
    simp only [ite_true]
    rw [ih (fun d hd => h d (by simp [hd]))]

theorem takeWhile_append_stop {p : Char → Bool} {x y : Str} {c : Char}
    (hx : ∀ ch ∈ x, p ch = true) (hc : p c = false) :
    (x ++ c :: y).takeWhile p = x := by
  rw [takeWhile_all_append hx, List.takeWhile_cons, hc]
  simp

theorem dropWhile_all_append {p : Char → Bool} {x y : Str}
    (h : ∀ c ∈ x, p c = true) : (x ++ y).dropWhile p = y.dropWhile p := by
  induction x with
  | nil => rfl
  | cons c t ih =>
    simp only [List.cons_append, List.dropWhile_cons, h c (by simp)]
    simp only [ite_true]
    exact ih (fun d hd => h d (by simp [hd]))

theorem dropWhile_cons_false {p : Char → Bool} {c : Char} {x : Str}
    (h : p c = false) : (c :: x).dropWhile p = c :: x := by
  rw [List.dropWhile_cons, h]
  simp

theorem trim_append_ws_left {pre x : Str} (h : ∀ c ∈ pre, isWs c = true) :
    trim (pre ++ x) = trim x := by
  unfold trim
  rw [dropWhile_all_append h]

theorem trim_ws_cons {c : Char} {x : Str} (h : isWs c = true) :
    trim (c :: x) = trim x := by
  have : (c :: x) = [c] ++ x := rfl
  rw [this, trim_append_ws_left (by simpa using h)]

theorem rdropWhile_append_all {p : Char → Bool} {x suf : Str}
    (h : ∀ c ∈ suf, p c = true) :
    List.rdropWhile p (x ++ suf) = List.rdropWhile p x := by
  induction suf using List.reverseRecOn with
  | nil => simp
  | append_singleton s c ih =>
    rw [← List.append_assoc]
    rw [List.rdropWhile_concat_pos p _ c (h c (by simp))]
    exact ih (fun d hd => h d (by simp [hd]))

theorem trim_append_ws_right {x suf : Str} (h : ∀ c ∈ suf, isWs c = true) :
    trim (x ++ suf) = trim x := by
  unfold trim
  rw [List.dropWhile_append]
  rcases hd : x.dropWhile isWs with _ | ⟨c, t⟩
  · simp only [List.isEmpty_nil, ite_true]
    have hs : suf.dropWhile isWs = [] := List.dropWhile_eq_nil_iff.mpr h
    rw [hs]
  · simp only [List.isEmpty_cons, Bool.false_eq_true, if_false]
    exact rdropWhile_append_all h

theorem trim_eq_self_of (x : Str) (hne : x ≠ [])
    (hh : isWs (x.headD 'x') = false) (hl : isWs (x.getLastD 'x') = false) :
    trim x = x := by
  apply trim_eq_self
  · intro c hc
    have : x.headD 'x' = c := by
      rcases x with _ | ⟨a, b⟩
      · simp at hc
      · simp at hc
        simp [hc]
    rw [← this]
    exact hh
  · intro c hc
    have : x.getLastD 'x' = c := by
      rw [List.getLastD_eq_getLast?, hc]
      rfl
    rw [← this]
    exact hl

theorem not_hasSub_of_not_mem {x : Str} {a b : Char} (h : a ∉ x) :
    hasSub x [a, b] = false := by
  cases hs : hasSub x [a, b] with
  | false => rfl
  | true =>
    exfalso
    have hinf := (hasSub_iff_infix_rel x [a, b]).mp hs
    exact h (hinf.subset (by simp))


/-- Occurrence of a two-character substring in an append: inside the left
part, across the boundary, or inside the right part. -/
theorem hasSub2_append_iff (x y : Str) (a b : Char) :
    hasSub (x ++ y) [a, b] = true ↔
      (hasSub x [a, b] = true ∨ (x.getLast? = some a ∧ y.head? = some b)
        ∨ hasSub y [a, b] = true) := by
  simp only [hasSub_iff_infix_rel]
  constructor
  · rintro ⟨p, q, hpq⟩
    rw [List.append_assoc] at hpq
    rcases List.append_eq_append_iff.mp hpq with ⟨x2, hx2, hq2⟩ | ⟨p2, hp2, hy2⟩
    · rcases List.append_eq_append_iff.mp hq2 with ⟨w, hw1, hw2⟩ | ⟨w, hw1, hw2⟩
      · left
        exact ⟨p, w, by rw [hx2, hw1]; simp⟩
      · rcases x2 with _ | ⟨c1, x3⟩
        · right; right
          have hw : w = [a, b] := by simpa using hw1.symm
          exact ⟨[], q, by rw [hw2, hw]; rfl⟩
        · rcases x3 with _ | ⟨c2, x4⟩
          · have h2 := hw1
            simp only [List.cons_append, List.nil_append, List.cons.injEq] at h2
            have hc1 : a = c1 := h2.1
            have hw : w = [b] := h2.2.symm
            right; left
            constructor
            · rw [hx2, ← hc1]
              exact List.getLast?_concat p
            · rw [hw2, hw]; rfl
          · have hl2 := congrArg List.length hw1
            simp only [List.length_cons, List.length_append, List.length_nil] at hl2
            have hx4 : x4 = [] := List.eq_nil_of_length_eq_zero (by omega)
            have hw0 : w = [] := List.eq_nil_of_length_eq_zero (by omega)
            subst hx4; subst hw0
            have h2 := hw1
            simp only [List.append_nil, List.cons.injEq] at h2
            left
            refine ⟨p, [], ?_⟩
            rw [hx2, h2.1, h2.2.1]
            simp
    · right; right
      refine ⟨p2, q, ?_⟩
      rw [List.append_assoc]
      exact hy2.symm
  · rintro (⟨p, q, hpq⟩ | ⟨hx, hy⟩ | ⟨p, q, hpq⟩)
    · exact ⟨p, q ++ y, by rw [← hpq]; simp⟩
    · rcases y with _ | ⟨c, y2⟩
      · simp at hy
      · simp only [List.head?_cons, Option.some_inj] at hy
        have hne : x ≠ [] := by
          intro e; rw [e] at hx; simp at hx
        have hga : x.getLast hne = a := by
          have hgl := List.getLast?_eq_getLast x hne
          rw [hgl] at hx
          exact Option.some_inj.mp hx
        refine ⟨x.dropLast, y2, ?_⟩
        have hsplit : x.dropLast ++ [a] = x := by
          rw [← hga]
          exact List.dropLast_append_getLast hne
        calc x.dropLast ++ [a, b] ++ y2 = (x.dropLast ++ [a]) ++ c :: y2 := by
              rw [hy]; simp
          _ = x ++ c :: y2 := by rw [hsplit]
    · exact ⟨x ++ p, q, by rw [← hpq]; simp⟩

theorem hasSub2_append_false {x y : Str} {a b : Char}
    (h1 : hasSub x [a, b] = false)
    (h2 : ¬(x.getLast? = some a ∧ y.head? = some b))
    (h3 : hasSub y [a, b] = false) : hasSub (x ++ y) [a, b] = false := by
  cases h : hasSub (x ++ y) [a, b] with
  | false => rfl
  | true =>
    rcases (hasSub2_append_iff x y a b).mp h with h' | h' | h'
    · rw [h'] at h1; exact absurd h1 (by decide)
    · exact absurd h' h2
    · rw [h'] at h3; exact absurd h3 (by decide)

theorem notSpTab_eq_not (c : Char) : notSpTab c = !isSpTab c := rfl

theorem notHash_true_iff (c : Char) : notHash c = true ↔ c ≠ '#' := by
  unfold notHash
  rcases h : (c == '#') with _ | _
  · simp only [Bool.not_false, true_iff]
    intro he
    rw [he] at h
    simp at h
  · simp only [Bool.not_true]
    constructor
    · intro hf; exact absurd hf (by decide)
    · intro hne; exact absurd (by simpa using h) hne

theorem notSpTab_true_of (c : Char) (h : isSpTab c = false) : notSpTab c = true := by
  rw [notSpTab_eq_not, h]
  rfl

theorem dropWhile_isSpTab_cons_of_ws {c : Char} {x : Str} (h : isWs c = false) :
    (c :: x).dropWhile isSpTab = c :: x :=
  dropWhile_cons_false (isSpTab_eq_false_of_ws h)

/-- `tokenizeCmd` on a string made of a clean leading token: the token is
captured whole and the second group starts after the following spaces/tabs. -/
theorem tokenizeCmd_token (c rest : Str) (hc0 : c ≠ [])
    (hcsp : ∀ ch ∈ c, isSpTab ch = false)
    (hrest : rest = [] ∨ ∃ r2, rest = ' ' :: r2) :
    tokenizeCmd (c ++ rest) =
      some (c, (rest.dropWhile isSpTab).takeWhile notHash) := by
  rcases c with _ | ⟨ch, ct⟩
  · exact absurd rfl hc0
  have hh : isSpTab ch = false := hcsp ch (by simp)
  have hdw : ((ch :: ct) ++ rest).dropWhile isSpTab = (ch :: ct) ++ rest := by
    rw [List.cons_append]
    exact dropWhile_cons_false hh
  have htk : ((ch :: ct) ++ rest).takeWhile notSpTab = ch :: ct := by
    rcases hrest with rfl | ⟨r2, rfl⟩
    · rw [List.append_nil]
      exact takeWhile_all (fun d hd => notSpTab_true_of d (hcsp d hd))
    · exact takeWhile_append_stop (fun d hd => notSpTab_true_of d (hcsp d hd))
        (by rw [notSpTab_eq_not]; rfl)
  show (match ((ch :: ct) ++ rest).dropWhile isSpTab with
    | [] => none
    | s => some (s.takeWhile notSpTab,
        ((s.drop (s.takeWhile notSpTab).length).dropWhile isSpTab).takeWhile notHash))
      = some (ch :: ct, (rest.dropWhile isSpTab).takeWhile notHash)
  rw [hdw]
  simp only [List.cons_append]
  rw [← List.cons_append, htk]
  have hdrop : ((ch :: ct) ++ rest).drop (ch :: ct).length = rest := List.drop_left _ _
  rw [hdrop]

theorem rdropWhile_append_left {p : Char → Bool} {x y : Str} (_hx : x ≠ [])
    (hl : p (x.getLastD 'x') = false) :
    List.rdropWhile p (x ++ y) = x ++ List.rdropWhile p y := by
  induction y using List.reverseRecOn with
  | nil =>
    simp only [List.append_nil, List.rdropWhile_nil]
    apply List.rdropWhile_eq_self_iff.mpr
    intro hne hpl
    have : x.getLastD 'x' = x.getLast hne := by
      rw [List.getLastD_eq_getLast?, List.getLast?_eq_getLast x hne]
      rfl
    rw [this] at hl
    rw [hl] at hpl
    exact absurd hpl (by decide)
  | append_singleton z d ih =>
    by_cases hd : p d = true
    · rw [← List.append_assoc, List.rdropWhile_concat_pos p _ d hd, ih,
        List.rdropWhile_concat_pos p _ d hd]
    · have hd2 : ¬ p d = true := hd
      rw [← List.append_assoc, List.rdropWhile_concat_neg p _ d hd2,
        List.rdropWhile_concat_neg p _ d hd2, List.append_assoc]

/-- The constructor applied to a directive-shaped line `c ++ tail`, where `c`
is a clean command token and `tail` is empty or starts with a space: the
command branch of lines 100-113 fires with `cmd = c`. -/
theorem mkNData_cmd_shape (c tail : Str) (hc0 : c ≠ [])
    (hcall : ∀ ch ∈ c, isSpTab ch = false ∧ ch ≠ '#' ∧ ch ≠ ' ')
    (hchw : isWs (c.headD 'x') = false)
    (hclw : isWs (c.getLastD 'x') = false)
    (hclt : c.headD 'x' ≠ '<')
    (hcsub : hasSub c (str "</") = false)
    (htail : tail = [] ∨ ∃ r2, tail = ' ' :: r2)
    (hts : hasSub tail (str "</") = false) :
    isOpen (c ++ tail) = false ∧ isClose (c ++ tail) = false ∧
      mkNData (c ++ tail) =
        { raw := some (c ++ tail), name := c, sectionName := none, cmd := some c,
          args := trim ((((List.rdropWhile isWs (tail.takeWhile notHash)).dropWhile
            isSpTab).takeWhile notHash)),
          suffix := some (suffixOf (c ++ tail)) } := by
  rcases c with _ | ⟨ch, ct⟩
  · exact absurd rfl hc0
  have hch_spec := hcall ch (by simp)
  have hwch : isWs ch = false := by
    have := hchw
    simpa using this
  have hchlt : ch ≠ '<' := by
    have := hclt
    simpa using this
  have hopen : isOpen ((ch :: ct) ++ tail) = false := by
    unfold isOpen
    rw [List.cons_append, dropWhile_cons_false (isSpTab_eq_false_of_ws hwch)]
    have hb : (ch == '<') = false := by simpa using hchlt
    simp [hb]
  have hclose : isClose ((ch :: ct) ++ tail) = false := by
    rw [isClose_eq_hasSub]
    apply hasSub2_append_false hcsub _ hts
    rintro ⟨h1, h2⟩
    rcases htail with rfl | ⟨r2, rfl⟩
    · simp at h2
    · simp only [List.head?_cons, Option.some_inj] at h2
      exact absurd h2 (by decide)
  refine ⟨hopen, hclose, ?_⟩
  have htrimW : ∀ (z : Str), trim ((ch :: ct) ++ z)
      = (ch :: ct) ++ List.rdropWhile isWs z := by
    intro z
    unfold trim
    rw [List.cons_append, dropWhile_cons_false hwch, ← List.cons_append]
    exact rdropWhile_append_left (by simp) hclw
  have hW : beforeHash ((ch :: ct) ++ tail) = (ch :: ct) ++ tail.takeWhile notHash := by
    unfold beforeHash
    exact takeWhile_all_append
      (fun d hd => (notHash_true_iff d).mpr (hcall d hd).2.1)
  have hcml : trim (beforeHash ((ch :: ct) ++ tail))
      = (ch :: ct) ++ List.rdropWhile isWs (tail.takeWhile notHash) := by
    rw [hW, htrimW]
  have htok : tokenizeCmd ((ch :: ct) ++ List.rdropWhile isWs (tail.takeWhile notHash))
      = some (ch :: ct,
        (((List.rdropWhile isWs (tail.takeWhile notHash)).dropWhile isSpTab).takeWhile
          notHash)) := by
    apply tokenizeCmd_token _ _ (by simp) (fun d hd => (hcall d hd).1)
    rcases htail with rfl | ⟨r2, rfl⟩
    · left; rfl
    · rcases hr : List.rdropWhile isWs ((' ' :: r2).takeWhile notHash) with _ | ⟨e, es⟩
      · left; rfl
      · right
        refine ⟨es, ?_⟩
        have hpre := List.rdropWhile_prefix isWs ((' ' :: r2).takeWhile notHash)
        rw [hr] at hpre
        have hth : (' ' :: r2).takeWhile notHash = ' ' :: r2.takeWhile notHash := by
          rw [List.takeWhile_cons]
          have hsp : notHash ' ' = true := by decide
          rw [hsp]
          simp
        rw [hth] at hpre
        rcases hpre with ⟨w, hw⟩
        have he : e = ' ' := by
          have := congrArg (fun l => List.head? l) hw
          simpa using this
        rw [he]
  have htk2 : (((ch :: ct) : Str) ++ List.rdropWhile isWs tail).takeWhile
      (fun c => !(c == ' ')) = ch :: ct := by
    have hcnosp : ∀ d ∈ (ch :: ct), (fun c => !(c == ' ')) d = true := by
      intro d hd
      have := (hcall d hd).2.2
      simpa using this
    rcases htail with rfl | ⟨r2, rfl⟩
    · simp only [List.rdropWhile_nil, List.append_nil]
      exact takeWhile_all hcnosp
    · rcases hr : List.rdropWhile isWs (' ' :: r2) with _ | ⟨e, es⟩
      · simp only [List.append_nil]
        exact takeWhile_all hcnosp
      · have hpre := List.rdropWhile_prefix isWs (' ' :: r2)
        rw [hr] at hpre
        rcases hpre with ⟨w, hw⟩
        have he : e = ' ' := by
          have := congrArg (fun l => List.head? l) hw
          simpa using this
        rw [he]
        exact takeWhile_append_stop hcnosp (by simp)
  have hname : nameGuess ((ch :: ct) ++ tail) = ch :: ct := by
    have hnt : nameTok ((ch :: ct) ++ tail) = ch :: ct := by
      unfold nameTok
      rw [htrimW tail, htk2]
    unfold nameGuess
    rw [hnt]
    have hb : (((ch :: ct) : Str).headD ' ' == '<') = false := by simpa using hchlt
    rw [hb]
    simp
  simp only [mkNData]
  rw [hopen, hclose]
  simp only [Bool.false_eq_true, if_false]
  rw [hcml, htok]
  have hemp : (((ch :: ct) : Str)
      ++ List.rdropWhile isWs (tail.takeWhile notHash)).isEmpty = false := by simp
  rw [hemp]
  simp only [Bool.false_eq_true, if_false]
  rw [hname]

theorem indentRepeat_all_ws (d : Nat) : ∀ c ∈ indentRepeat d, isWs c = true := by
  intro c hc
  unfold indentRepeat at hc
  rcases List.mem_flatten.mp hc with ⟨l, hl, hcl⟩
  have hlu : l = indentUnit := List.eq_of_mem_replicate hl
  rw [hlu] at hcl
  have hunit : indentUnit = [' ', ' ', ' ', ' '] := rfl
  rw [hunit] at hcl
  have hsp : c = ' ' := by simpa using hcl
  rw [hsp]
  rfl

/-- The constructor applied to a section-open line as `dump` renders it:
`<s args>` with an optional ` # comment` tail (`X` is the rendered
args-with-space part, `P` the rendered suffix part). -/
theorem mkNData_open_shape (s args X P : Str)
    (hs0 : s ≠ [])
    (hsall : ∀ ch ∈ s, notSpGt ch = true)
    (hshead : s.headD 'x' ≠ '/')
    (hX : (args = [] ∧ X = []) ∨ (args ≠ [] ∧ X = ' ' :: args))
    (ha : ∀ ch ∈ args, ch ≠ '>')
    (ha1 : trim args = args)
    (hP : P = [] ∨ ∃ sfx, P = ' ' :: sfx ∧ sfx ≠ [] ∧ isWs (sfx.getLastD 'x') = false) :
    trim ('<' :: s ++ X ++ '>' :: P) = '<' :: s ++ X ++ '>' :: P ∧
    isOpen ('<' :: s ++ X ++ '>' :: P) = true ∧
    (mkNData ('<' :: s ++ X ++ '>' :: P)).sectionName = some s ∧
    (mkNData ('<' :: s ++ X ++ '>' :: P)).cmd = none ∧
    (mkNData ('<' :: s ++ X ++ '>' :: P)).args = args := by
  rcases s with _ | ⟨sh, st⟩
  · exact absurd rfl hs0
  have hshn : sh ≠ '/' := by simpa using hshead
  have hXshape : X = [] ∨ ∃ xr, X = ' ' :: xr := by
    rcases hX with ⟨_, rfl⟩ | ⟨_, rfl⟩
    · left; rfl
    · right; exact ⟨args, rfl⟩
  have htrim : trim ('<' :: (sh :: st) ++ X ++ '>' :: P)
      = '<' :: (sh :: st) ++ X ++ '>' :: P := by
    apply trim_eq_self_of _ (by simp)
    · have hhd : (('<' :: (sh :: st) ++ X ++ '>' :: P) : Str).headD 'x' = '<' := rfl
      rw [hhd]
      decide
    · rcases hP with rfl | ⟨sfx, rfl, hsne, hslast⟩
      · have he : ('<' :: (sh :: st) ++ X ++ '>' :: ([] : Str))
            = ('<' :: ((sh :: st) ++ X)) ++ ['>'] := by simp
        rw [List.getLastD_eq_getLast?, he, List.getLast?_concat]
        rfl
      · have he : ('<' :: (sh :: st) ++ X ++ '>' :: (' ' :: sfx))
            = ('<' :: ((sh :: st) ++ X) ++ ['>', ' ']) ++ sfx := by simp
        rw [List.getLastD_eq_getLast?, he, List.getLast?_append_of_ne_nil _ hsne,
          ← List.getLastD_eq_getLast?]
        exact hslast
  have hopen : isOpen ('<' :: (sh :: st) ++ X ++ '>' :: P) = true := by
    have hform : ('<' :: (sh :: st) ++ X ++ '>' :: P)
        = '<' :: sh :: (st ++ X ++ '>' :: P) := by simp
    rw [hform]
    unfold isOpen
    have hdw : List.dropWhile isSpTab ('<' :: sh :: (st ++ X ++ '>' :: P))
        = '<' :: sh :: (st ++ X ++ '>' :: P) := dropWhile_cons_false (by decide)
    rw [hdw]
    have hb : (sh == '/') = false := by simpa using hshn
    simp [hb]
  have hsec : secOpenMatch ('<' :: (sh :: st) ++ X ++ '>' :: P)
      = some (sh :: st, X.takeWhile notGt) := by
    show secOpenMatch ('<' :: ((sh :: st) ++ X ++ '>' :: P)) = _
    unfold secOpenMatch
    simp only [beq_self_eq_true, if_true]
    have htk : ((sh :: st) ++ X ++ '>' :: P).takeWhile notSpGt = sh :: st := by
      rw [List.append_assoc]
      rcases hXshape with rfl | ⟨xr, rfl⟩
      · simp only [List.nil_append]
        exact takeWhile_append_stop hsall (by decide)
      · have hform : ((' ' :: xr) ++ '>' :: P) = ' ' :: (xr ++ '>' :: P) := by simp
        rw [hform]
        exact takeWhile_append_stop hsall (by decide)
    rw [htk]
    have hne : (sh :: st : Str).isEmpty = false := rfl
    rw [hne]
    simp only [Bool.false_eq_true, if_false]
    have hdrop : ((sh :: st) ++ X ++ '>' :: P).drop (sh :: st).length
        = X ++ '>' :: P := by
      rw [List.append_assoc]
      exact List.drop_left _ _
    rw [hdrop]
    have htg : (X ++ '>' :: P).takeWhile notGt = X.takeWhile notGt := by
      rcases hX with ⟨_, rfl⟩ | ⟨_, rfl⟩
      · show (('>' :: P).takeWhile notGt) = []
        rw [List.takeWhile_cons]
        have hng : notGt '>' = false := by decide
        rw [hng]
        simp
      · have hag : ∀ d ∈ args, notGt d = true :=
          fun d hd => by unfold notGt; simpa using ha d hd
        have h1 : ((' ' :: args) ++ '>' :: P).takeWhile notGt = ' ' :: args := by
          have hf : ((' ' :: args) ++ '>' :: P) = ' ' :: (args ++ '>' :: P) := by simp
          rw [hf, List.takeWhile_cons]
          have hg : notGt ' ' = true := by decide
          rw [hg]
          simp only [if_true]
          rw [takeWhile_append_stop hag (by decide)]
        have h2 : (' ' :: args).takeWhile notGt = ' ' :: args := by
          rw [List.takeWhile_cons]
          have hg : notGt ' ' = true := by decide
          rw [hg]
          simp only [if_true]
          rw [takeWhile_all hag]
        rw [h1, h2]
    rw [htg]
  have hXtake : trim (X.takeWhile notGt) = args := by
    rcases hX with ⟨rfl, rfl⟩ | ⟨hane, rfl⟩
    · rfl
    · have hstep : (' ' :: args).takeWhile notGt = ' ' :: args.takeWhile notGt := by
        rw [List.takeWhile_cons]
        have hg : notGt ' ' = true := by decide
        rw [hg]
        simp
      rw [hstep, takeWhile_all (fun d hd => by unfold notGt; simpa using ha d hd)]
      rw [trim_ws_cons (by rfl)]
      exact ha1
  refine ⟨htrim, hopen, ?_, ?_, ?_⟩
  · simp only [mkNData]
    rw [hopen]
    simp only [if_true, hsec]
  · simp only [mkNData]
    rw [hopen]
    simp only [if_true, hsec]
  · simp only [mkNData]
    rw [hopen]
    simp only [if_true, hsec, hXtake]

/-- The constructor applied to a comment-only line (first character `#`):
the command line is empty, so only `suffix` is populated. -/
theorem mkNData_comment_shape (sfx : Str)
    (h0 : sfx ≠ []) (hh : sfx.headD 'x' = '#')
    (hl : isWs (sfx.getLastD 'x') = false)
    (hsub : hasSub sfx (str "</") = false) :
    trim sfx = sfx ∧ isOpen sfx = false ∧ isClose sfx = false ∧
    suffixOf sfx = sfx ∧
    mkNData sfx =
      { raw := some sfx, name := nameGuess sfx, sectionName := none, cmd := none,
        args := [], suffix := some (suffixOf sfx) } := by
  rcases sfx with _ | ⟨c1, cr⟩
  · exact absurd rfl h0
  have hc1 : c1 = '#' := by simpa using hh
  subst hc1
  have htrim : trim ('#' :: cr) = '#' :: cr := by
    apply trim_eq_self_of _ (by simp)
    · rfl
    · exact hl
  have hopen : isOpen ('#' :: cr) = false := by
    unfold isOpen
    rw [dropWhile_cons_false (by decide)]
    simp
  have hclose : isClose ('#' :: cr) = false := by
    rw [isClose_eq_hasSub]
    exact hsub
  have hsf : suffixOf ('#' :: cr) = '#' :: cr := by
    unfold suffixOf
    exact dropWhile_cons_false (by decide)
  refine ⟨htrim, hopen, hclose, hsf, ?_⟩
  have hbh : beforeHash ('#' :: cr) = [] := by
    unfold beforeHash
    rw [List.takeWhile_cons]
    have : notHash '#' = false := by decide
    rw [this]
    simp
  simp only [mkNData]
  rw [hopen, hclose]
  simp only [Bool.false_eq_true, if_false]
  rw [hbh]
  rfl

/-- The constructor's classification of a close-tag line as `dump` renders
it: `</s>`. -/
theorem closeLine_shape (s : Str) :
    trim ('<' :: '/' :: s ++ ['>']) = '<' :: '/' :: s ++ ['>'] ∧
    isOpen ('<' :: '/' :: s ++ ['>']) = false ∧
    isClose ('<' :: '/' :: s ++ ['>']) = true := by
  refine ⟨?_, ?_, ?_⟩
  · apply trim_eq_self_of _ (by simp)
    · rfl
    · have he : ('<' :: '/' :: s ++ ['>']) = ('<' :: '/' :: s) ++ ['>'] := by simp
      rw [List.getLastD_eq_getLast?, he, List.getLast?_concat]
      rfl
  · unfold isOpen
    have hdw : List.dropWhile isSpTab ('<' :: '/' :: s ++ ['>'])
        = '<' :: '/' :: s ++ ['>'] := dropWhile_cons_false (by decide)
    rw [hdw]
    simp
  · have hca : closeAt ('<' :: '/' :: s ++ ['>']) = true := by
      unfold closeAt
      have hdw : List.dropWhile isSpTab ('<' :: '/' :: s ++ ['>'])
          = '<' :: '/' :: s ++ ['>'] := dropWhile_cons_false (by decide)
      rw [hdw]
      simp
    show (closeAt ('<' :: '/' :: s ++ ['>']) || isClose ('/' :: s ++ ['>'])) = true
    rw [hca]
    simp

theorem mkNData_raw (r : Str) : (mkNData r).raw = some r := by
  simp only [mkNData]
  split
  · split <;> rfl
  · split
    · split <;> rfl
    · split
      · split <;> rfl
      · rfl

theorem isOpenD_mk (r : Str) : isOpenD (mkNData r) = isOpen r := by
  unfold isOpenD
  rw [mkNData_raw]

theorem isCloseD_mk (r : Str) : isCloseD (mkNData r) = isClose r := by
  unfold isCloseD
  rw [mkNData_raw]

/-!
## Claims
-/

/-- C10: For every non-blank input line that does not open a section, if the
line contains the substring `</` anywhere — including a directive line whose
trailing comment contains `</` — the parser classifies it as a section close:
the node is not added to the tree and the current parent moves up one level,
because `/[ \t]*<\//` is not anchored to the start of the line. -/
theorem c10_unanchored_close (st : PState) (l : Str)
    (h1 : trim l ≠ []) (h2 : isOpen (trim l) = false)
    (h3 : hasSub (trim l) (str "</") = true) :
    treeStep st (mkNData (trim l)) = closeStep st ∧
    (∀ (rk : List Slot) (f g : Frame) (fs : List Frame),
      closeStep ⟨rk, f :: g :: fs, none⟩
        = ⟨rk, { g with kids := g.kids ++ [closeFrame f] } :: fs, none⟩) := by
  constructor
  · have hraw : (mkNData (trim l)).raw = some (trim l) := mkNData_raw _
    have hod : isOpenD (mkNData (trim l)) = false := by
      rw [isOpenD_mk]
      exact h2
    have hcd : isCloseD (mkNData (trim l)) = true := by
      rw [isCloseD_mk, isClose_eq_hasSub]
      exact h3
    unfold treeStep
    rw [hod, hcd]
    simp
  · intro rk f g fs
    rfl

theorem c10_unanchored_close_witness :
    treeStep ⟨[], [⟨mkNData (str "<VirtualHost *:80>"), []⟩], none⟩
        (mkNData (trim (str "ServerName foo # a </b")))
      = closeStep ⟨[], [⟨mkNData (str "<VirtualHost *:80>"), []⟩], none⟩ ∧
    (∀ (rk : List Slot) (f g : Frame) (fs : List Frame),
      closeStep ⟨rk, f :: g :: fs, none⟩
        = ⟨rk, { g with kids := g.kids ++ [closeFrame f] } :: fs, none⟩) :=
  c10_unanchored_close _ _ (by decide) (by decide) (by decide)

/-- C3 counterexample: a `<VirtualHost *:80>` section parsed with no children
still dumps a `</VirtualHost>` close-tag line, because
`this.children.length > 0` compares the arity of the `children` method (1),
not the child count.  The claim "the dump of a section with empty content
contains no close tag line" is false. -/
theorem c3_close_tag_counterexample :
    ((readTextE emptyEnv true 1 (str "<VirtualHost *:80>")).content.map
        (fun c => c.content.length)) = [0] ∧
    ((readTextE emptyEnv true 1 (str "<VirtualHost *:80>")).content.headD
        (NodeV.mk rootData [])).data.sectionName = some (str "VirtualHost") ∧
    hasSub (dump ((readTextE emptyEnv true 1 (str "<VirtualHost *:80>")).content.headD
        (NodeV.mk rootData [])) 0) (str "</VirtualHost>") = true :=
  ⟨rfl, rfl, rfl⟩

/-- C3 amended: for every section node (any `cmd`-less node with a section
name not starting with `/`), `dump` emits the close tag line at the same
depth as the open tag **unconditionally** — for an arbitrary child list,
including the empty one — because the `this.children.length > 0` guard
compares the `children` method's arity, which is always positive. -/
theorem c3_close_tag_always (d : NData) (kids : List NodeV) (s : Str) (depth : Nat)
    (hcmd : truthyStr d.cmd = false)
    (hs : d.sectionName = some s)
    (hs0 : s ≠ [])
    (hslash : (s.headD 'x' == '/') = false) :
    ∃ openRest, dumpLines (NodeV.mk d kids) depth
      = (indentRepeat depth ++ '<' :: s ++ openRest)
        :: (dumpLinesList kids (depth + 1)
          ++ [indentRepeat depth ++ '<' :: '/' :: s ++ ['>']]) := by
  have hsec : truthyStr d.sectionName = true := by
    rw [hs]
    unfold truthyStr
    simp [hs0]
  rw [dumpLines]
  rw [hcmd]
  simp only [Bool.false_eq_true, if_false]
  rw [hsec]
  simp only [if_true, hs, Option.getD_some, hslash, Bool.false_eq_true, if_false]
  rw [if_pos (by decide : childrenMethodArity > 0)]
  by_cases hargs : d.args.isEmpty
  · refine ⟨'>' :: (match d.suffix with
      | some s2 => if s2.isEmpty then [] else ' ' :: s2
      | none => []), ?_⟩
    rw [hargs]
    simp
  · refine ⟨' ' :: d.args ++ '>' :: (match d.suffix with
      | some s2 => if s2.isEmpty then [] else ' ' :: s2
      | none => []), ?_⟩
    have hf : d.args.isEmpty = false := by
      rcases h : d.args.isEmpty
      · rfl
      · exact absurd h hargs
    rw [hf]
    simp

theorem c3_close_tag_always_witness :
    ∃ openRest, dumpLines (NodeV.mk (mkNData (str "<VirtualHost *:80>")) []) 0
      = (indentRepeat 0 ++ '<' :: str "VirtualHost" ++ openRest)
        :: (dumpLinesList [] 1
          ++ [indentRepeat 0 ++ '<' :: '/' :: str "VirtualHost" ++ ['>']]) :=
  c3_close_tag_always _ _ _ _ (by decide) (by decide) (by decide) (by decide)

/-- C4 counterexample: `add` does **not** set the child's parent.  Heap with
two detached nodes (ids 0 and 1); after `add 0 1` the child's record is
untouched — its `parent` is still `none`, not `some 0` as claimed. -/
theorem c4_add_parent_counterexample :
    (addH [⟨none, [], none⟩, ⟨none, [], none⟩] 0 1).get? 1
        = some ⟨none, [], none⟩ ∧
    ¬ (((addH [⟨none, [], none⟩, ⟨none, [], none⟩] 0 1).get? 1).map HNode.parent
        = some (some 0)) := by
  constructor
  · rfl
  · intro h
    exact absurd h (by decide)

/-- C4 amended: `p.add(c)` appends `c` to `p.content` and updates
`p.lastChild` to `c`, but writes **no other object**: in particular the
child's record — including its `parent` back-reference — is unchanged (the
parser sets `parent` in the constructor instead).  The `instanceof Node`
guard of line 137 is outside the typed model. -/
theorem c4_add_appends_sets_lastChild (h : Heap) (p c : Nat) (n : HNode)
    (hp : h.get? p = some n) :
    (addH h p c).get? p
        = some { n with content := n.content ++ [c], lastChild := some c } ∧
    ∀ q, q ≠ p → (addH h p c).get? q = h.get? q := by
  have hplen : p < h.length := by
    rw [List.get?_eq_getElem?] at hp
    exact (List.getElem?_eq_some_iff.mp hp).1
  constructor
  · unfold addH
    rw [hp, List.get?_eq_getElem?]
    exact List.getElem?_set_eq_of_lt _ hplen
  · intro q hq
    unfold addH
    rw [hp, List.get?_eq_getElem?, List.get?_eq_getElem?]
    exact List.getElem?_set_ne (fun he => hq he.symm)

theorem c4_add_appends_sets_lastChild_witness :
    (addH [⟨none, [], none⟩, ⟨none, [], none⟩] 0 1).get? 0
        = some { parent := none, content := [] ++ [1], lastChild := some 1 } ∧
    ∀ q, q ≠ 0 → (addH [⟨none, [], none⟩, ⟨none, [], none⟩] 0 1).get? q
        = ([⟨none, [], none⟩, ⟨none, [], none⟩] : Heap).get? q :=
  c4_add_appends_sets_lastChild _ 0 1 ⟨none, [], none⟩ rfl

/-- In detached mode (`parent` is `undefined` or an orphan chain) a tree step
only moves the chain depth: the root children and the open-section stack are
untouched. -/
theorem treeStep_det_some (rk : List Slot) (stk : List Frame) (k : Nat) (d : NData) :
    ∃ k2, treeStep (⟨rk, stk, some k⟩ : PState) d = ⟨rk, stk, some k2⟩ := by
  by_cases h1 : isOpenD d
  · exact ⟨k + 1, by simp [treeStep, h1, openStep]⟩
  · by_cases h2 : isCloseD d
    · exact ⟨k - 1, by simp [treeStep, h1, h2, closeStep]⟩
    · exact ⟨k, by simp [treeStep, h1, h2, addStep]⟩

/-- A whole `readText` line preserves detachment when no glob matches. -/
theorem textLineStep_det_some (env : Env) (fuel : Nat) (inc : Bool)
    (hg : ∀ p, env.globSync p = []) (rk : List Slot) (stk : List Frame)
    (k : Nat) (line : Str) :
    ∃ k2, textLineStep env fuel inc (⟨rk, stk, some k⟩ : PState) line
        = ⟨rk, stk, some k2⟩ := by
  by_cases hb : (trim line).isEmpty
  · exact ⟨k, by simp [textLineStep, hb]⟩
  · obtain ⟨k2, hk2⟩ := treeStep_det_some rk stk k (mkNData (trim line))
    by_cases hi : inc && isIncludeName (mkNData (trim line))
    · refine ⟨k2, ?_⟩
      simp only [textLineStep, hb, if_false, hi, if_true, hk2, Bool.false_eq_true]
      simp [textIncludeStep, hg, globGo]
    · exact ⟨k2, by simp [textLineStep, hb, hi, hk2]⟩

theorem foldl_textLineStep_det_some (env : Env) (fuel : Nat) (inc : Bool)
    (hg : ∀ p, env.globSync p = []) (lines : List Str) :
    ∀ rk stk k, ∃ k2, lines.foldl (textLineStep env fuel inc) ⟨rk, stk, some k⟩
        = ⟨rk, stk, some k2⟩ := by
  induction lines with
  | nil => exact fun rk stk k => ⟨k, rfl⟩
  | cons l ls ih =>
    intro rk stk k
    obtain ⟨k1, h1⟩ := textLineStep_det_some env fuel inc hg rk stk k l
    obtain ⟨k2, h2⟩ := ih rk stk k1
    exact ⟨k2, by rw [List.foldl_cons, h1, h2]⟩

/-- C2 counterexample: parsing `"a b\n</x>\nc d"` — the `</x>` is an unmatched
close at the root.  The claim says `c d` is still added; in fact
`parent = parent?.parent` walks past the root to `undefined`, `parent?.add`
becomes a no-op, and the result has a single child `a b`. -/
theorem c2_dropped_after_root_close_counterexample :
    (readTextE emptyEnv true 1 (str "a b\n</x>\nc d")).content.length = 1 ∧
    ((readTextE emptyEnv true 1 (str "a b\n</x>\nc d")).content.map
        (fun n => n.data.cmd)) = [some (str "a")] :=
  ⟨rfl, rfl⟩

/-- C2 amended: an unmatched close at the root does **not** leave the parser
positioned at the root.  `parent = parent?.parent` walks past the root to
`undefined` (modelled `det := some 0`), and from a detached state every
subsequent line — open, close, directive or blank — leaves the root children
and the open-section stack unchanged (given no include glob matches), so no
subsequent line is added to the tree. -/
theorem c2_root_close_detaches (env : Env) (fuel : Nat) (inc : Bool)
    (hg : ∀ p, env.globSync p = []) (lines : List Str) (rk : List Slot)
    (st : PState) (k : Nat) (hdet : st.det = some k) :
    closeStep (⟨rk, [], none⟩ : PState) = ⟨rk, [], some 0⟩ ∧
    ∃ k2, lines.foldl (textLineStep env fuel inc) st
        = ⟨st.rootKids, st.stack, some k2⟩ := by
  refine ⟨rfl, ?_⟩
  obtain ⟨rk2, stk2, det2⟩ := st
  cases hdet
  exact foldl_textLineStep_det_some env fuel inc hg lines rk2 stk2 k

theorem c2_root_close_detaches_witness :
    closeStep (⟨[], [], none⟩ : PState) = ⟨[], [], some 0⟩ ∧
    ∃ k2, [str "c d"].foldl (textLineStep emptyEnv 1 true) ⟨[], [], some 0⟩
        = ⟨[], [], some k2⟩ :=
  c2_root_close_detaches emptyEnv 1 true (fun _ => rfl) [str "c d"] []
    ⟨[], [], some 0⟩ 0 rfl

/-- A file system for C8: `conf/main.conf` exists and names a missing include
target; nothing else exists and no glob matches anything. -/
def envC8 : Env :=
  { existsSync := fun _ => false
  , lstatIsDir := fun _ => none
  , globSync := fun _ => []
  , readFileLines := fun p =>
      if p == str "conf/main.conf" then
        some [str "a b", str "Include missing.conf", str "c d"]
      else none }

/-- C8 (code bug): in `readFile` the include path is passed to `lstatSync`
*without* an `existsSync` guard and *outside* the per-file `try` (line 364),
so a missing include target throws `ENOENT` and aborts the whole file parse —
nothing degrades gracefully and the remaining line `c d` is lost.  The same
lines fed through `readText` (which does guard with `existsSync`, line 307)
parse to completion with all three nodes. -/
theorem c8_missing_include_aborts_file_parse :
    readFileE 3 envC8 true (str "conf/main.conf")
        = Except.error (PErr.enoent (str "conf/missing.conf")) ∧
    (readTextE envC8 true 3 (str "a b\nInclude missing.conf\nc d")).content.length
        = 3 :=
  ⟨rfl, rfl⟩

/-- A file system for C9: `conf/opt.conf` holds a single `IncludeOptional`
whose target is missing. -/
def envC9 : Env :=
  { existsSync := fun _ => false
  , lstatIsDir := fun _ => none
  , globSync := fun _ => []
  , readFileLines := fun p =>
      if p == str "conf/opt.conf" then some [str "IncludeOptional inc.d"]
      else none }

/-- C9 (code bug): both halves of the claim fail.  The "Cannot parse" syntax
error of line 106 is unreachable — after trimming, a non-blank non-comment
line always has a nonempty first token, so the tokenizer never fails — and a
*different* error does abort an entire parse: the unguarded `lstatSync` of
line 364 propagates `ENOENT` out of `readFile`, even for `IncludeOptional`. -/
theorem c9_no_syntax_abort_but_lstat_aborts :
    (∀ raw, mkNDataThrows raw = false) ∧
    readFileE 3 envC9 true (str "conf/opt.conf")
        = Except.error (PErr.enoent (str "conf/inc.d")) :=
  ⟨mkNDataThrows_eq_false, rfl⟩

/-- The per-child test of `getIndex` (lines 158-166): node identity for a
node argument, case-insensitive name equality for a string argument. -/
def afterMatch (a : Sum ONode Str) (c : ONode) : Bool :=
  match a with
  | Sum.inl n => c.nid == n.nid
  | Sum.inr s => lowerStr c.data.name == lowerStr s

/-- Position of the last child matching `a` (the spec's "last matching
occurrence"), for comparison with `getIndex`. -/
def lastMatchPos (a : Sum ONode Str) : List ONode → Option Nat
  | [] => none
  | c :: rest =>
    match lastMatchPos a rest with
    | some j => some (j + 1)
    | none => if afterMatch a c then some 0 else none

/-- The node `insert` constructs and returns: the argument itself, or a
fresh node parsing the one raw line. -/
def insNode (cs : Sum ONode Str) (fresh : Nat) : ONode :=
  match cs with
  | Sum.inl n => n
  | Sum.inr s => mkONode fresh s


theorem getIndexGo_cons (a : Sum ONode Str) (c : ONode) (rest : List ONode)
    (i : Nat) (idx : Int) :
    getIndexGo a (c :: rest) i idx
      = getIndexGo a rest (i + 1) (if afterMatch a c then (i : Int) + 1 else idx) := by
  cases a <;> rfl

theorem getIndexGo_eq_lastMatchPos (a : Sum ONode Str) :
    ∀ (l : List ONode) (i : Nat) (idx : Int),
      getIndexGo a l i idx =
        match lastMatchPos a l with
        | some j => (i : Int) + j + 1
        | none => idx := by
  intro l
  induction l with
  | nil => intro i idx; rfl
  | cons c rest ih =>
    intro i idx
    rw [getIndexGo_cons, ih]
    rcases hr : lastMatchPos a rest with _ | j
    · simp only [lastMatchPos, hr]
      by_cases hc : afterMatch a c
      · simp [hc]
      · simp [hc]
    · simp only [lastMatchPos, hr]
      push_cast
      ring

theorem getIndex_eq_lastMatchPos (a : Sum ONode Str) (l : List ONode) :
    getIndex l a =
      match lastMatchPos a l with
      | some j => (j : Int) + 1
      | none => -1 := by
  show getIndexGo a l 0 (-1) = _
  rw [getIndexGo_eq_lastMatchPos]
  cases lastMatchPos a l <;> simp

theorem lastMatchPos_none (a : Sum ONode Str) :
    ∀ l : List ONode, lastMatchPos a l = none → ∀ c ∈ l, afterMatch a c = false := by
  intro l
  induction l with
  | nil => intro _ c hc; cases hc
  | cons c rest ih =>
    intro h d hd
    rcases hr : lastMatchPos a rest with _ | j
    · simp only [lastMatchPos, hr] at h
      rcases List.mem_cons.mp hd with hd | hd
      · subst hd
        by_cases hc : afterMatch a d
        · rw [if_pos hc] at h; cases h
        · exact Bool.eq_false_iff.mpr hc
      · exact ih hr d hd
    · simp only [lastMatchPos, hr] at h
      cases h

theorem lastMatchPos_some_match (a : Sum ONode Str) :
    ∀ (l : List ONode) (j : Nat), lastMatchPos a l = some j →
      ∃ c, l.get? j = some c ∧ afterMatch a c = true := by
  intro l
  induction l with
  | nil => intro j h; cases h
  | cons c rest ih =>
    intro j h
    rcases hr : lastMatchPos a rest with _ | j0
    · simp only [lastMatchPos, hr] at h
      by_cases hc : afterMatch a c
      · rw [if_pos hc] at h
        cases h
        exact ⟨c, rfl, hc⟩
      · rw [if_neg hc] at h
        cases h
    · simp only [lastMatchPos, hr] at h
      cases h
      obtain ⟨d, hd, hdm⟩ := ih j0 hr
      exact ⟨d, hd, hdm⟩

theorem lastMatchPos_some_last (a : Sum ONode Str) :
    ∀ (l : List ONode) (j : Nat), lastMatchPos a l = some j →
      ∀ j' c', j < j' → l.get? j' = some c' → afterMatch a c' = false := by
  intro l
  induction l with
  | nil => intro j h; cases h
  | cons c rest ih =>
    intro j h j' c' hlt hg
    rcases hj' : j' with _ | j2
    · omega
    · subst hj'
      have hg2 : rest.get? j2 = some c' := hg
      rcases hr : lastMatchPos a rest with _ | j0
      · exact lastMatchPos_none a rest hr c' (List.get?_mem hg2)
      · simp only [lastMatchPos, hr] at h
        cases h
        exact ih j0 hr j2 c' (by omega) hg2

theorem setContent_nid (t : ONode) (l : List ONode) : (t.setContent l).nid = t.nid := by
  cases t; rfl

theorem setContent_data (t : ONode) (l : List ONode) : (t.setContent l).data = t.data := by
  cases t; rfl

theorem setContent_content (t : ONode) (l : List ONode) : (t.setContent l).content = l := by
  cases t; rfl

theorem insertO_some (t : ONode) (cs : Sum ONode Str) (a : Sum ONode Str)
    (fresh : Nat) :
    insertO t cs (some a) fresh =
      if getIndex t.content a > -1 then
        (t.setContent (t.content.take (getIndex t.content a).toNat
            ++ insNode cs fresh :: t.content.drop (getIndex t.content a).toNat),
         insNode cs fresh)
      else (t.setContent (t.content ++ [insNode cs fresh]), insNode cs fresh) := by
  cases cs <;> rfl

theorem insertO_none (t : ONode) (cs : Sum ONode Str) (fresh : Nat) :
    insertO t cs none fresh
      = (t.setContent (t.content ++ [insNode cs fresh]), insNode cs fresh) := by
  cases cs <;> rfl

/-- C5: `insert(childSpec, afterSpec)` returns the inserted node (for a string
argument, a fresh node parsing that one line); with no `afterSpec` it appends
at the end; with an `afterSpec`, if no child matches it appends at the end,
and otherwise it splices the new node immediately after the **last** matching
occurrence (the `forEach` of `getIndex` overwrites `idx` on every match); the
parent's identity and own data are unchanged. -/
theorem c5_insert_after_last_match (t : ONode) (cs : Sum ONode Str)
    (a : Sum ONode Str) (fresh : Nat) :
    (∀ s, insNode (Sum.inr s) fresh = ONode.mk fresh (mkNData s) []) ∧
    (insertO t cs (some a) fresh).2 = insNode cs fresh ∧
    (insertO t cs none fresh).2 = insNode cs fresh ∧
    (insertO t cs none fresh).1.content = t.content ++ [insNode cs fresh] ∧
    (insertO t cs (some a) fresh).1.nid = t.nid ∧
    (insertO t cs (some a) fresh).1.data = t.data ∧
    (match lastMatchPos a t.content with
     | none =>
        (∀ c ∈ t.content, afterMatch a c = false) ∧
        (insertO t cs (some a) fresh).1.content = t.content ++ [insNode cs fresh]
     | some j =>
        (∃ c, t.content.get? j = some c ∧ afterMatch a c = true) ∧
        (∀ j' c', j < j' → t.content.get? j' = some c' → afterMatch a c' = false) ∧
        (insertO t cs (some a) fresh).1.content
          = t.content.take (j + 1) ++ insNode cs fresh :: t.content.drop (j + 1)) := by
  have hsome := insertO_some t cs a fresh
  rcases hr : lastMatchPos a t.content with _ | j
  · have hidx : getIndex t.content a = -1 := by rw [getIndex_eq_lastMatchPos, hr]
    rw [hidx] at hsome
    norm_num at hsome
    exact ⟨fun s => rfl, by rw [hsome], by rw [insertO_none],
      by rw [insertO_none, setContent_content],
      by rw [hsome, setContent_nid], by rw [hsome, setContent_data],
      lastMatchPos_none a t.content hr, by rw [hsome, setContent_content]⟩
  · have hidx : getIndex t.content a = (j : Int) + 1 := by
      rw [getIndex_eq_lastMatchPos, hr]
    rw [hidx] at hsome
    rw [if_pos (by omega : ((j : Int) + 1) > -1)] at hsome
    have htn : ((j : Int) + 1).toNat = j + 1 := by omega
    rw [htn] at hsome
    exact ⟨fun s => rfl, by rw [hsome], by rw [insertO_none],
      by rw [insertO_none, setContent_content],
      by rw [hsome, setContent_nid], by rw [hsome, setContent_data],
      lastMatchPos_some_match a t.content j hr,
      lastMatchPos_some_last a t.content j hr,
      by rw [hsome, setContent_content]⟩

theorem hasSub_cons_false {c a : Char} {sb v : Str} (hca : (a == c) = false)
    (h : hasSub v (a :: sb) = false) : hasSub (c :: v) (a :: sb) = false := by
  show ((a :: sb).isPrefixOf (c :: v) || hasSub v (a :: sb)) = false
  rw [h]
  simp only [Bool.or_false, List.isPrefixOf]
  rw [hca]
  rfl

theorem ndata_set_args_self {d : NData} {v : Str} (h : d.args = v) :
    { d with args := v } = d := by
  cases d
  cases h
  rfl

/-- The constructor on a clean `name value` line: `name` and `args` come back
exactly (the shape `set` relies on). -/
theorem mkNData_name_args (n v : Str) (hn0 : n ≠ [])
    (hnall : ∀ ch ∈ n, isSpTab ch = false ∧ ch ≠ '#' ∧ ch ≠ ' ')
    (hnhw : isWs (n.headD 'x') = false)
    (hnlw : isWs (n.getLastD 'x') = false)
    (hnlt : n.headD 'x' ≠ '<')
    (hnsub : hasSub n (str "</") = false)
    (hv0 : v ≠ [])
    (hvnh : ∀ ch ∈ v, ch ≠ '#')
    (hvhw : isWs (v.headD 'x') = false)
    (hvlw : isWs (v.getLastD 'x') = false)
    (hvsub : hasSub v (str "</") = false) :
    isOpen (n ++ ' ' :: v) = false ∧ isClose (n ++ ' ' :: v) = false ∧
      (mkNData (n ++ ' ' :: v)).name = n ∧ (mkNData (n ++ ' ' :: v)).args = v := by
  rcases v with _ | ⟨b, bs⟩
  · exact absurd rfl hv0
  have hts : hasSub (' ' :: b :: bs) (str "</") = false :=
    hasSub_cons_false (by decide) hvsub
  have hshape := mkNData_cmd_shape n (' ' :: b :: bs) hn0 hnall hnhw hnlw hnlt hnsub
    (Or.inr ⟨b :: bs, rfl⟩) hts
  refine ⟨hshape.1, hshape.2.1, ?_, ?_⟩
  · rw [hshape.2.2]
  · rw [hshape.2.2]
    show trim (((List.rdropWhile isWs
        ((' ' :: b :: bs).takeWhile notHash)).dropWhile isSpTab).takeWhile notHash)
      = b :: bs
    have htk : (' ' :: b :: bs).takeWhile notHash = ' ' :: b :: bs := by
      apply takeWhile_all
      intro d hd
      rcases List.mem_cons.mp hd with rfl | hd2
      · decide
      · exact (notHash_true_iff d).mpr (hvnh d hd2)
    rw [htk]
    have hlast : (' ' :: b :: bs).getLastD 'x' = (b :: bs).getLastD 'x' := by
      simp [List.getLastD_cons]
    have hrd : List.rdropWhile isWs (' ' :: b :: bs) = ' ' :: b :: bs := by
      have h0 := rdropWhile_append_left (p := isWs) (x := ' ' :: b :: bs) (y := [])
        (by simp) (by rw [hlast]; exact hvlw)
      simpa using h0
    rw [hrd]
    have hb : isWs b = false := by simpa using hvhw
    have hdw : (' ' :: b :: bs).dropWhile isSpTab = b :: bs := by
      have h1 : (' ' :: b :: bs).dropWhile isSpTab = (b :: bs).dropWhile isSpTab := by
        rw [List.dropWhile_cons, if_pos (by decide : isSpTab ' ' = true)]
      rw [h1]
      exact dropWhile_cons_false (isSpTab_eq_false_of_ws hb)
    rw [hdw]
    have htk2 : (b :: bs).takeWhile notHash = b :: bs := by
      apply takeWhile_all
      intro d hd
      exact (notHash_true_iff d).mpr (hvnh d hd)
    rw [htk2]
    exact trim_eq_self_of _ (by simp) hvhw hvlw

theorem setContent_self (t : ONode) : t.setContent t.content = t := by
  cases t; rfl

theorem setContent_setContent (t : ONode) (l l2 : List ONode) :
    (t.setContent l).setContent l2 = t.setContent l2 := by
  cases t; rfl

theorem setArgs_name (c : ONode) (v : Str) :
    (c.setArgs v).data.name = c.data.name := by
  cases c; rfl

theorem setArgs_setArgs (c : ONode) (v : Str) :
    (c.setArgs v).setArgs v = c.setArgs v := by
  cases c; rfl

theorem nameMatchesO_setArgs (c : ONode) (v n : Str) :
    nameMatchesO (c.setArgs v) n = nameMatchesO c n := by
  unfold nameMatchesO
  rw [setArgs_name]

/-- C6 counterexample: `set` is not idempotent for a name the tokenizer
splits.  `set('a b', 'v')` inserts the raw line `a b v`, whose parsed `name`
is `a`, so a second identical `set` finds no child named `a b` and inserts
again: two children after two calls, one after one. -/
theorem c6_set_twice_counterexample :
    (setO (setO (ONode.mk 0 rootData []) (str "a b") (str "v") 1)
        (str "a b") (str "v") 2).content.length = 2 ∧
    (setO (ONode.mk 0 rootData []) (str "a b") (str "v") 1).content.length = 1 :=
  ⟨rfl, rfl⟩

/-- C6 amended: `set(n, v)` is idempotent when the raw line `n v` parses back
with `name = n` and `args = v` — `n` a clean token (nonempty, no
whitespace/`#`, not starting `<`, no `</`) and `v` trimmed with no `#` or
`</`.  The counterexample shows the restriction is needed: a name the
tokenizer splits re-inserts on every call. -/
theorem c6_set_idempotent (t : ONode) (n v : Str) (f1 f2 : Nat)
    (hn0 : n ≠ [])
    (hnall : ∀ ch ∈ n, isSpTab ch = false ∧ ch ≠ '#' ∧ ch ≠ ' ')
    (hnhw : isWs (n.headD 'x') = false)
    (hnlw : isWs (n.getLastD 'x') = false)
    (hnlt : n.headD 'x' ≠ '<')
    (hnsub : hasSub n (str "</") = false)
    (hv0 : v ≠ [])
    (hvnh : ∀ ch ∈ v, ch ≠ '#')
    (hvhw : isWs (v.headD 'x') = false)
    (hvlw : isWs (v.getLastD 'x') = false)
    (hvsub : hasSub v (str "</") = false) :
    setO (setO t n v f1) n v f2 = setO t n v f1 := by
  obtain ⟨-, -, hname, hargs⟩ := mkNData_name_args n v hn0 hnall hnhw hnlw hnlt
    hnsub hv0 hvnh hvhw hvlw hvsub
  have hmatch : nameMatchesO (mkONode f1 (n ++ ' ' :: v)) n = true := by
    show (lowerStr (mkNData (n ++ ' ' :: v)).name == lowerStr n) = true
    rw [hname]
    simp
  have hsetargs_new : (mkONode f1 (n ++ ' ' :: v)).setArgs v
      = mkONode f1 (n ++ ' ' :: v) := by
    show ONode.mk f1 { mkNData (n ++ ' ' :: v) with args := v } []
      = ONode.mk f1 (mkNData (n ++ ' ' :: v)) []
    rw [ndata_set_args_self hargs]
  by_cases hemp : (childrenO t n).isEmpty
  · have h1 : setO t n v f1
        = t.setContent (t.content ++ [mkONode f1 (n ++ ' ' :: v)]) := by
      unfold setO
      rw [if_pos hemp, insertO_none]
      rfl
    have hfa : t.content.filter (fun c => nameMatchesO c n) = [] :=
      List.isEmpty_iff.mp hemp
    have hfilter : ∀ c ∈ t.content, nameMatchesO c n = false := by
      intro c hc
      exact Bool.eq_false_iff.mpr (List.filter_eq_nil_iff.mp hfa c hc)
    have hch1 : childrenO (t.setContent (t.content ++ [mkONode f1 (n ++ ' ' :: v)])) n
        = [mkONode f1 (n ++ ' ' :: v)] := by
      unfold childrenO
      rw [setContent_content, List.filter_append, hfa]
      simp [hmatch]
    have hne2 : (childrenO (t.setContent
        (t.content ++ [mkONode f1 (n ++ ' ' :: v)])) n).isEmpty = false := by
      rw [hch1]
      rfl
    have hmap : (t.content ++ [mkONode f1 (n ++ ' ' :: v)]).map
        (fun c => if nameMatchesO c n then c.setArgs v else c)
        = t.content ++ [mkONode f1 (n ++ ' ' :: v)] := by
      rw [List.map_append]
      congr 1
      · have hpt : ∀ c ∈ t.content,
            (fun c => if nameMatchesO c n then c.setArgs v else c) c = id c := by
          intro c hc
          simp [hfilter c hc]
        rw [List.map_congr_left hpt, List.map_id]
      · simp [hmatch, hsetargs_new]
    rw [h1]
    unfold setO
    simp only [hne2, Bool.false_eq_true, if_false]
    rw [setContent_content, setContent_setContent, hmap]
  · have h1 : setO t n v f1 = t.setContent (t.content.map
        (fun c => if nameMatchesO c n then c.setArgs v else c)) := by
      unfold setO
      rw [if_neg hemp]
    have hfn_pres : ∀ c ∈ t.content,
        ((fun c => nameMatchesO c n) ∘
          (fun c => if nameMatchesO c n then c.setArgs v else c)) c
          = nameMatchesO c n := by
      intro c _
      by_cases hm : nameMatchesO c n
      · simp [hm, nameMatchesO_setArgs]
      · simp [hm]
    have hne0 : t.content.filter (fun c => nameMatchesO c n) ≠ [] := by
      intro h0
      exact hemp (List.isEmpty_iff.mpr h0)
    have hne2 : (childrenO (t.setContent (t.content.map
        (fun c => if nameMatchesO c n then c.setArgs v else c))) n).isEmpty
          = false := by
      unfold childrenO
      rw [setContent_content, List.filter_map,
        List.filter_congr hfn_pres]
      apply Bool.eq_false_iff.mpr
      intro htrue
      exact hne0 (List.map_eq_nil_iff.mp (List.isEmpty_iff.mp htrue))
    rw [h1]
    unfold setO
    simp only [hne2, Bool.false_eq_true, if_false]
    rw [setContent_content, setContent_setContent, List.map_map]
    have hidem : ∀ c ∈ t.content,
        ((fun c => if nameMatchesO c n then c.setArgs v else c) ∘
          (fun c => if nameMatchesO c n then c.setArgs v else c)) c
          = (fun c => if nameMatchesO c n then c.setArgs v else c) c := by
      intro c _
      by_cases hm : nameMatchesO c n
      · simp [hm, nameMatchesO_setArgs, setArgs_setArgs]
      · simp [hm]
    rw [List.map_congr_left hidem]

theorem c6_set_idempotent_witness :
    setO (setO (ONode.mk 0 rootData []) (str "SSLEngine") (str "Off") 1)
        (str "SSLEngine") (str "Off") 2
      = setO (ONode.mk 0 rootData []) (str "SSLEngine") (str "Off") 1 :=
  c6_set_idempotent (ONode.mk 0 rootData []) (str "SSLEngine") (str "Off") 1 2
    (by decide) (by decide) (by decide) (by decide) (by decide) (by decide)
    (by decide) (by decide) (by decide) (by decide) (by decide)

theorem findVHostGo_eq_find (h : Str) (arg : Option Str) (vs : List NodeV) :
    findVHostGo h arg vs = vs.find? (fun v =>
      (match arg with
       | some a => a.isEmpty || hasSub v.data.args a
       | none => true) && (getAllHostnames v).contains (some h)) := by
  induction vs with
  | nil => rfl
  | cons v rest ih =>
    unfold findVHostGo
    rcases arg with _ | a
    · by_cases hc : some h ∈ getAllHostnames v <;>
        simp [List.find?_cons, hc, ih]
    · by_cases he : a = []
      · subst he
        by_cases hc : some h ∈ getAllHostnames v <;>
          simp [List.find?_cons, hc, ih]
      · cases hs : hasSub v.data.args a <;>
          by_cases hc : some h ∈ getAllHostnames v <;>
          simp [List.find?_cons, he, hs, hc, ih]

/-- Spec-modelled (from the claim's words, not the source): one step of a
whitespace split, scanning from the right. -/
def wsSplitF (c : Char) (acc : List Str × Str) : List Str × Str :=
  if isWs c then (if acc.2.isEmpty then acc.1 else acc.2 :: acc.1, [])
  else (acc.1, c :: acc.2)

/-- Spec-modelled (from the claim's words, not the source): split on runs of
whitespace, dropping empty tokens — what "every whitespace-split token"
describes.  The source instead calls `split(' ')`. -/
def wsSplit (s : Str) : List Str :=
  let r := s.foldr wsSplitF ([], [])
  if r.2.isEmpty then r.1 else r.2 :: r.1

/-- Spec-modelled `getAllHostnames`: identical to the source's except that
`ServerAlias` args are whitespace-split. -/
def getAllHostnamesSpec (vhost : NodeV) : List (Option Str) :=
  ((firstV vhost (str "ServerName")).map (fun n => n.data.args)) ::
    (childrenV vhost (str "ServerAlias")).flatMap
      (fun al => (wsSplit al.data.args).map some)

def findVHostSpecGo (hostname : Str) (arg : Option Str) : List NodeV → Option NodeV
  | [] => none
  | v :: vs =>
    if (match arg with
        | some a => !a.isEmpty && !hasSub v.data.args a
        | none => false) then
      findVHostSpecGo hostname arg vs
    else if (getAllHostnamesSpec v).contains (some hostname) then some v
    else findVHostSpecGo hostname arg vs

/-- Spec-modelled `findVHost`: the claim's whitespace-split reading. -/
def findVHostSpec (t : NodeV) (hostname : Str) (arg : Option Str) : Option NodeV :=
  findVHostSpecGo hostname arg (childrenV t (str "<VirtualHost>"))

/-- C7 counterexample: a `ServerAlias` whose aliases are separated by a TAB.
The claim's whitespace-split candidate list contains `b.com`, but the source
splits on a single space (`split(' ')`), so the parsed tab-separated args stay
one token and `findVHost('b.com')` misses the section. -/
theorem c7_tab_alias_counterexample :
    findVHost (readTextE emptyEnv true 1
        (str "<VirtualHost *:80>\nServerAlias a.com\tb.com\n</VirtualHost>"))
      (str "b.com") none = none ∧
    (findVHostSpec (readTextE emptyEnv true 1
        (str "<VirtualHost *:80>\nServerAlias a.com\tb.com\n</VirtualHost>"))
      (str "b.com") none).isSome = true ∧
    findVHost (readTextE emptyEnv true 1
        (str "<VirtualHost *:80>\nServerAlias a.com\tb.com\n</VirtualHost>"))
      (str "a.com") none = none :=
  ⟨rfl, rfl, rfl⟩

/-- C7 amended: `findVHost` scans only the direct `<VirtualHost>` children and
returns the first one that passes the `arg`-substring filter and whose
candidate hostnames contain `hostname` exactly — but the candidates from
`ServerAlias` args are split on a **single space** (`split(' ')`), not on
whitespace: a tab-separated alias list stays one candidate (counterexample
above).  The `ServerName` candidate is the first one's entire `args`; `null`
(`none`) when no section qualifies. -/
theorem c7_findVHost_space_split (t : NodeV) (h : Str) (arg : Option Str) :
    findVHost t h arg
      = (childrenV t (str "<VirtualHost>")).find? (fun v =>
          (match arg with
           | some a => a.isEmpty || hasSub v.data.args a
           | none => true)
          && (((firstV v (str "ServerName")).map (fun n => n.data.args)) ::
              (childrenV v (str "ServerAlias")).flatMap
                (fun al => (splitOnChar ' ' al.data.args).map some)).contains
              (some h)) := by
  unfold findVHost
  rw [findVHostGo_eq_find]
  rfl

/-!
## Round-trip infrastructure (claim C1)
-/

/-- The pure line step of `readText` when include expansion contributes
nothing: skip blank lines, otherwise classify and step the tree. -/
def pstep (st : PState) (l : Str) : PState :=
  if (trim l).isEmpty then st else treeStep st (mkNData (trim l))

def pfold (ls : List Str) (st : PState) : PState := ls.foldl pstep st

/-- Append completed nodes at the current insertion point: the innermost open
frame's child list, or the root child list. -/
def appendTop (st : PState) (ns : List NodeV) : PState :=
  match st.stack with
  | f :: fs => { st with stack := { f with kids := f.kids ++ ns } :: fs }
  | [] => { st with rootKids := st.rootKids ++ ns.map Slot.node }

/-- The `padded` suffix rendering of `dump` (lines 405-407). -/
def paddedOf (d : NData) : Str :=
  match d.suffix with
  | some s => if s.isEmpty then [] else ' ' :: s
  | none => []

def noNlStr (s : Str) : Bool := s.all (fun ch => !(ch == '\n'))

/-- A command token that survives a dump/re-parse cycle intact. -/
def cleanCmdTok (c : Str) : Bool :=
  !c.isEmpty
    && c.all (fun ch => !isSpTab ch && !(ch == '#') && !(ch == ' ') && !(ch == '\n'))
    && !isWs (c.headD 'x') && !isWs (c.getLastD 'x')
    && !(c.headD 'x' == '<') && !hasSub c (str "</")

def cleanCmdArgs (a : Str) : Bool :=
  (trim a == a) && a.all (fun ch => !(ch == '#') && !(ch == '\n'))
    && !hasSub a (str "</")

def cleanSecName (s : Str) : Bool :=
  !s.isEmpty && s.all (fun ch => notSpGt ch && !(ch == '\n'))
    && !(s.headD 'x' == '/')

def cleanSecArgs (a : Str) : Bool :=
  (trim a == a) && a.all (fun ch => !(ch == '>') && !(ch == '\n'))

/-- A stored `suffix` as the parser itself produces: empty, or a `#`-led
comment tail with no trailing whitespace. -/
def suffixOk : Option Str → Bool
  | none => false
  | some sfx => sfx.isEmpty
      || ((sfx.headD 'x' == '#') && !isWs (sfx.getLastD 'x')
            && noNlStr sfx && !hasSub sfx (str "</"))

/-- Well-behaved data of a directive or comment node. -/
def cmdDataOk (d : NData) : Bool :=
  if truthyStr d.cmd then
    d.sectionName.isNone && cleanCmdTok (d.cmd.getD [])
      && cleanCmdArgs d.args && suffixOk d.suffix
  else
    d.cmd.isNone && d.sectionName.isNone && d.args.isEmpty
      && (match d.suffix with
          | none => false
          | some sfx => !sfx.isEmpty)
      && suffixOk d.suffix

/-- Well-behaved data of a section node. -/
def sectionDataOk (d : NData) : Bool :=
  d.cmd.isNone
    && (match d.sectionName with
        | some s => cleanSecName s
        | none => false)
    && cleanSecArgs d.args && suffixOk d.suffix

/-- What C1's amendment assumes of each input line: blank, or such that its
parsed classification is well-behaved (in particular, a line that `isOpen`
accepts really names a section — `secOpenMatch` succeeds with a clean name not
starting `/`). -/
def GoodLine (l : Str) : Bool :=
  (trim l).isEmpty ||
    (if isOpen (trim l) then sectionDataOk (mkNData (trim l))
     else if isClose (trim l) then true
     else cmdDataOk (mkNData (trim l)))

mutual

/-- Well-formedness of a parse-produced node: its data is well-behaved and its
shape matches its kind (only sections carry children). -/
def WFNode : NodeV → Bool
  | .mk d kids =>
    if truthyStr d.cmd then kids.isEmpty && cmdDataOk d
    else if truthyStr d.sectionName then sectionDataOk d && WFList kids
    else kids.isEmpty && cmdDataOk d

def WFList : List NodeV → Bool
  | [] => true
  | n :: ns => WFNode n && WFList ns

end

mutual

def sizeN : NodeV → Nat
  | .mk _ kids => 1 + sizeL kids

def sizeL : List NodeV → Nat
  | [] => 0
  | n :: ns => sizeN n + sizeL ns

end

theorem pfold_cons (l : Str) (ls : List Str) (st : PState) :
    pfold (l :: ls) st = pfold ls (pstep st l) := rfl

theorem pfold_append (a b : List Str) (st : PState) :
    pfold (a ++ b) st = pfold b (pfold a st) := List.foldl_append _ _ _ _

theorem appendTop_det (st : PState) (ns : List NodeV) :
    (appendTop st ns).det = st.det := by
  obtain ⟨rk, stk, det⟩ := st
  cases stk <;> rfl

theorem appendTop_nil_stack {st : PState} (ns : List NodeV) (h : st.stack = []) :
    appendTop st ns = { st with rootKids := st.rootKids ++ ns.map Slot.node } := by
  obtain ⟨rk, stk, det⟩ := st
  cases h
  rfl

theorem appendTop_cons_stack {st : PState} {f : Frame} {fs : List Frame}
    (ns : List NodeV) (h : st.stack = f :: fs) :
    appendTop st ns
      = { st with stack := { f with kids := f.kids ++ ns } :: fs } := by
  obtain ⟨rk, stk, det⟩ := st
  cases h
  rfl

theorem appendTop_append (st : PState) (xs ys : List NodeV) :
    appendTop (appendTop st xs) ys = appendTop st (xs ++ ys) := by
  obtain ⟨rk, stk, det⟩ := st
  cases stk with
  | nil => simp [appendTop]
  | cons f fs => simp [appendTop]

theorem fillHole_append_holeFree {rk : List Slot} (n : NodeV)
    (h : Slot.hole ∉ rk) :
    fillHole (rk ++ [Slot.hole]) n = rk ++ [Slot.node n] := by
  induction rk with
  | nil => rfl
  | cons s rest ih =>
    have hs : s ≠ Slot.hole := fun he => h (he ▸ List.mem_cons_self s rest)
    have hrest : Slot.hole ∉ rest := fun hm => h (List.mem_cons_of_mem s hm)
    cases s with
    | hole => exact absurd rfl hs
    | node m =>
      show Slot.node m :: fillHole (rest ++ [Slot.hole]) n
          = Slot.node m :: (rest ++ [Slot.node n])
      rw [ih hrest]

theorem dumpLinesList_nil (depth : Nat) : dumpLinesList [] depth = [] := rfl

theorem dumpLinesList_cons (n : NodeV) (ns : List NodeV) (depth : Nat) :
    dumpLinesList (n :: ns) depth
      = dumpLines n depth ++ dumpLinesList ns depth := rfl

theorem dumpLines_cmd (d : NData) (kids : List NodeV) (depth : Nat) (c : Str)
    (hc : d.cmd = some c) (htr : truthyStr d.cmd = true) :
    dumpLines (NodeV.mk d kids) depth
      = [indentRepeat depth ++ c ++ ' ' :: d.args ++ paddedOf d] := by
  rw [hc] at htr
  simp only [dumpLines, hc, htr, if_true, Option.getD_some, paddedOf]

theorem dumpLines_section (d : NData) (kids : List NodeV) (depth : Nat) (s : Str)
    (hcmd : truthyStr d.cmd = false) (hs : d.sectionName = some s)
    (htr : truthyStr d.sectionName = true)
    (hhead : (s.headD 'x' == '/') = false) :
    dumpLines (NodeV.mk d kids) depth
      = (if d.args.isEmpty = false then
           indentRepeat depth ++ '<' :: s ++ ' ' :: d.args ++ '>' :: paddedOf d
         else indentRepeat depth ++ '<' :: s ++ '>' :: paddedOf d)
        :: (dumpLinesList kids (depth + 1)
            ++ [indentRepeat depth ++ '<' :: '/' :: s ++ ['>']]) := by
  rw [hs] at htr
  simp only [dumpLines, hcmd, Bool.false_eq_true, if_false, hs, htr, if_true,
    Option.getD_some, hhead, paddedOf, childrenMethodArity]
  cases ha : d.args.isEmpty <;> simp [ha]

theorem dumpLines_comment (d : NData) (kids : List NodeV) (depth : Nat) (sfx : Str)
    (hcmd : truthyStr d.cmd = false) (hsec : truthyStr d.sectionName = false)
    (hsfx : d.suffix = some sfx) (hne : sfx.isEmpty = false) :
    dumpLines (NodeV.mk d kids) depth
      = (indentRepeat depth ++ sfx) :: dumpLinesList kids depth := by
  have htr : truthyStr (some sfx) = true := by
    unfold truthyStr
    simp only []
    rw [hne]
    rfl
  simp only [dumpLines, hcmd, Bool.false_eq_true, if_false, hsec, hsfx, htr,
    if_true, Option.getD_some, childrenMethodArity]
  simp

theorem dumpLines_root (kids : List NodeV) (depth : Nat) :
    dumpLines (NodeV.mk rootData kids) depth = dumpLinesList kids depth := by
  simp only [dumpLines, rootData, truthyStr, childrenMethodArity]
  simp

theorem joinLines_nil : joinLines [] = [] := rfl

theorem joinLines_cons (l : Str) (ls : List Str) :
    joinLines (l :: ls) = l ++ '\n' :: joinLines ls := by
  show (l ++ ['\n']) ++ joinLines ls = l ++ '\n' :: joinLines ls
  simp

theorem splitOnChar_sepfree_append {sep : Char} {l rest : Str}
    (h : sep ∉ l) :
    splitOnChar sep (l ++ sep :: rest) = l :: splitOnChar sep rest := by
  induction l with
  | nil =>
    show splitOnChar sep (sep :: rest) = [] :: splitOnChar sep rest
    simp only [splitOnChar, beq_self_eq_true, if_true]
  | cons c t ih =>
    have hc : (c == sep) = false := by
      have : c ≠ sep := fun he => h (he ▸ List.mem_cons_self c t)
      simpa using this
    have ht : sep ∉ t := fun hm => h (List.mem_cons_of_mem c hm)
    show splitOnChar sep (c :: (t ++ sep :: rest)) = (c :: t) :: splitOnChar sep rest
    simp only [splitOnChar, hc, Bool.false_eq_true, if_false]
    rw [ih ht]

theorem splitOnChar_joinLines (ls : List Str) (h : ∀ l ∈ ls, '\n' ∉ l) :
    splitOnChar '\n' (joinLines ls) = ls ++ [[]] := by
  induction ls with
  | nil => rfl
  | cons l rest ih =>
    rw [joinLines_cons,
      splitOnChar_sepfree_append (h l (List.mem_cons_self l rest)),
      ih (fun m hm => h m (List.mem_cons_of_mem l hm))]
    rfl

theorem noNl_mem {s : Str} (h : noNlStr s = true) : '\n' ∉ s := by
  intro hm
  have := List.all_eq_true.mp h _ hm
  simp at this

theorem noNlStr_append (a b : Str) :
    noNlStr (a ++ b) = (noNlStr a && noNlStr b) := List.all_append

theorem indentRepeat_all_space (depth : Nat) :
    ∀ c ∈ indentRepeat depth, c = ' ' := by
  intro c hc
  unfold indentRepeat at hc
  rcases List.mem_flatten.mp hc with ⟨u, hu, hcu⟩
  have hun : u = indentUnit := List.eq_of_mem_replicate hu
  rw [hun] at hcu
  have hs : str "    " = [' ', ' ', ' ', ' '] := rfl
  have hcu2 : c ∈ [' ', ' ', ' ', ' '] := by rw [← hs]; exact hcu
  simpa using hcu2

theorem noNl_indentRepeat (depth : Nat) : noNlStr (indentRepeat depth) = true := by
  apply List.all_eq_true.mpr
  intro c hc
  rw [indentRepeat_all_space depth c hc]
  rfl

theorem rdropWhile_ws_cons_keep {v : Str} (hv : v ≠ [])
    (hlast : isWs (v.getLastD 'x') = false) :
    List.rdropWhile isWs (' ' :: v) = ' ' :: v := by
  have hlast2 : ((' ' :: v).getLastD 'x') = v.getLastD 'x' := by
    rcases v with _ | ⟨b, bs⟩
    · exact absurd rfl hv
    · simp [List.getLastD_cons]
  have h0 := rdropWhile_append_left (p := isWs) (x := ' ' :: v) (y := [])
    (by simp) (by rw [hlast2]; exact hlast)
  simpa using h0

theorem trimmed_getLastD_not_ws {a : Str} (ht : trim a = a) (hne : a ≠ []) :
    isWs (a.getLastD 'x') = false := by
  have hgl : a.getLast? = some (a.getLast hne) := List.getLast?_eq_getLast a hne
  have hws : isWs (a.getLast hne) = false := by
    apply trim_getLast_not_ws (s := a)
    rw [ht]
    exact hgl
  rw [List.getLastD_eq_getLast?, hgl]
  exact hws

theorem paddedOf_shape (d : NData) (hok : suffixOk d.suffix = true) :
    paddedOf d = []
    ∨ ∃ sfx, paddedOf d = ' ' :: sfx ∧ sfx ≠ [] ∧ sfx.headD 'x' = '#'
        ∧ isWs (sfx.getLastD 'x') = false ∧ noNlStr sfx = true
        ∧ hasSub sfx (str "</") = false := by
  rcases hsfx : d.suffix with _ | sfx
  · rw [hsfx] at hok
    exact absurd hok (by simp [suffixOk])
  · rw [hsfx] at hok
    simp only [suffixOk] at hok
    by_cases he : sfx.isEmpty
    · left
      simp [paddedOf, hsfx, he]
    · right
      have he' : sfx.isEmpty = false := Bool.eq_false_iff.mpr he
      rw [he'] at hok
      simp only [Bool.false_or, Bool.and_eq_true] at hok
      obtain ⟨⟨⟨hh, hl⟩, hnl⟩, hsub⟩ := hok
    
      refine ⟨sfx, ?_, ?_, ?_, ?_, ?_, ?_⟩
      · simp [paddedOf, hsfx, he']
      · intro he2
        rw [he2] at he'
        simp at he'
      · simpa using hh
      · simpa using hl
      · exact hnl
      · simpa using hsub

/-- Re-parsed second group of a dumped directive line: the original `args`
comes back (comment suffix stripped by the `[^#]*` capture, the separating
and trailing blanks by `trim`). -/
theorem argsBack (args padded : Str)
    (ht : trim args = args)
    (hnh : ∀ ch ∈ args, ch ≠ '#')
    (hpad : padded = [] ∨ ∃ sfx, padded = ' ' :: sfx ∧ sfx.headD 'x' = '#') :
    trim (((List.rdropWhile isWs
        ((' ' :: (args ++ padded)).takeWhile notHash)).dropWhile
      isSpTab).takeWhile notHash) = args := by
  have h1 : (' ' :: (args ++ padded)).takeWhile notHash
      = ' ' :: (args ++ padded).takeWhile notHash := by
    rw [List.takeWhile_cons]
    have hsp : notHash ' ' = true := by decide
    rw [hsp]
    simp
  have h2 : (args ++ padded).takeWhile notHash
      = args ++ padded.takeWhile notHash :=
    takeWhile_all_append (fun ch hch => (notHash_true_iff ch).mpr (hnh ch hch))
  have h3 : padded.takeWhile notHash = [] ∨ padded.takeWhile notHash = [' '] := by
    rcases hpad with rfl | ⟨sfx, rfl, hh⟩
    · left; rfl
    · right
      rcases sfx with _ | ⟨s0, srest⟩
      · exact absurd hh (by decide)
      · have hs0 : s0 = '#' := by simpa using hh
        subst hs0
        rw [List.takeWhile_cons]
        have hsp : notHash ' ' = true := by decide
        rw [hsp]
        simp only [if_true]
        rw [List.takeWhile_cons]
        have hhash : notHash '#' = false := by decide
        rw [hhash]
        simp
  rw [h1, h2]
  rcases hargs : args with _ | ⟨b, bs⟩
  · rcases h3 with h3 | h3 <;> rw [h3] <;> simp <;> decide
  · have hb : isWs b = false := trim_cons_head (hargs ▸ ht)
    have hlast : isWs ((b :: bs).getLastD 'x') = false := by
      rw [← hargs]
      exact trimmed_getLastD_not_ws ht (by rw [hargs]; simp)
    have hrd : List.rdropWhile isWs (' ' :: (b :: bs))
        = ' ' :: (b :: bs) := rdropWhile_ws_cons_keep (by simp) hlast
    have hmid : List.rdropWhile isWs
        (' ' :: ((b :: bs) ++ padded.takeWhile notHash)) = ' ' :: (b :: bs) := by
      rcases h3 with h3 | h3 <;> rw [h3]
      · simpa using hrd
      · have hform : (' ' :: ((b :: bs) ++ [' ']))
            = (' ' :: (b :: bs)) ++ [' '] := by simp
        rw [hform, List.rdropWhile_concat_pos isWs _ ' ' (by decide)]
        exact hrd
    rw [hmid]
    have hdw : (' ' :: (b :: bs)).dropWhile isSpTab = b :: bs := by
      rw [List.dropWhile_cons, if_pos (by decide : isSpTab ' ' = true)]
      exact dropWhile_cons_false (isSpTab_eq_false_of_ws hb)
    rw [hdw]
    have htw : (b :: bs).takeWhile notHash = b :: bs :=
      takeWhile_all (fun ch hch =>
        (notHash_true_iff ch).mpr (hnh ch (hargs ▸ hch)))
    rw [htw, ← hargs, ht]

theorem trim_token_append (c tail : Str) (hc0 : c ≠ [])
    (hhw : isWs (c.headD 'x') = false) (hlw : isWs (c.getLastD 'x') = false) :
    trim (c ++ tail) = c ++ List.rdropWhile isWs tail := by
  rcases c with _ | ⟨ch, ct⟩
  · exact absurd rfl hc0
  unfold trim
  rw [List.cons_append, dropWhile_cons_false (by simpa using hhw),
    ← List.cons_append]
  exact rdropWhile_append_left (by simp) hlw

theorem rdrop_tail (args padded : Str) (hta : trim args = args)
    (hps : padded = []
      ∨ ∃ sfx, padded = ' ' :: sfx ∧ sfx ≠ [] ∧ isWs (sfx.getLastD 'x') = false) :
    List.rdropWhile isWs (' ' :: (args ++ padded))
      = if (args ++ padded).isEmpty then [] else ' ' :: (args ++ padded) := by
  rcases hps with rfl | ⟨sfx, rfl, hs0, hslast⟩
  · rcases hargs : args with _ | ⟨b, bs⟩
    · decide
    · have hlast : isWs ((b :: bs).getLastD 'x') = false := by
        rw [← hargs]
        exact trimmed_getLastD_not_ws hta (by rw [hargs]; simp)
      have h0 := rdropWhile_ws_cons_keep (v := b :: bs) (by simp) hlast
      simpa using h0
  · have hne : args ++ ' ' :: sfx ≠ [] := by simp
    have hlast : isWs ((args ++ ' ' :: sfx).getLastD 'x') = false := by
      have h1 : (args ++ ' ' :: sfx).getLast? = (' ' :: sfx).getLast? :=
        List.getLast?_append_of_ne_nil _ (by simp)
      have h2 : (' ' :: sfx).getLast? = sfx.getLast? := by
        show ([' '] ++ sfx).getLast? = sfx.getLast?
        exact List.getLast?_append_of_ne_nil _ hs0
      rw [List.getLastD_eq_getLast?, h1, h2, ← List.getLastD_eq_getLast?]
      exact hslast
    have h0 := rdropWhile_ws_cons_keep hne hlast
    rw [h0]
    have : (args ++ ' ' :: sfx).isEmpty = false := by
      rcases args <;> rfl
    rw [this]
    simp

theorem treeStep_add (st : PState) (core : Str) (ho : isOpen core = false)
    (hc : isClose core = false) :
    treeStep st (mkNData core) = addStep st (mkNData core) := by
  unfold treeStep
  rw [isOpenD_mk, ho, isCloseD_mk, hc]
  simp

theorem treeStep_open (st : PState) (core : Str) (ho : isOpen core = true) :
    treeStep st (mkNData core) = openStep st (mkNData core) := by
  unfold treeStep
  rw [isOpenD_mk, ho]
  simp

theorem treeStep_close (st : PState) (core : Str) (ho : isOpen core = false)
    (hc : isClose core = true) :
    treeStep st (mkNData core) = closeStep st := by
  unfold treeStep
  rw [isOpenD_mk, ho, isCloseD_mk, hc]
  simp

theorem pstep_core (st : PState) (l core : Str) (htrim : trim l = core)
    (hne : core ≠ []) : pstep st l = treeStep st (mkNData core) := by
  unfold pstep
  rw [htrim]
  have he : core.isEmpty = false := by
    rcases core with _ | ⟨x, xs⟩
    · exact absurd rfl hne
    · rfl
  rw [he]
  simp

/-- A dumped directive line re-parses as an `add` of a node with the same
`cmd`, `args` and (absent) section name. -/
theorem pstep_cmd_line (st : PState) (d : NData) (depth : Nat) (c l : Str)
    (hc : d.cmd = some c) (htr : truthyStr d.cmd = true) (hok : cmdDataOk d = true)
    (hl : l = indentRepeat depth ++ (c ++ ' ' :: (d.args ++ paddedOf d))) :
    ∃ d2, pstep st l = addStep st d2
      ∧ d2.cmd = some c ∧ d2.sectionName = none ∧ d2.args = d.args := by
  simp only [cmdDataOk, htr, if_true, Bool.and_eq_true] at hok
  obtain ⟨⟨⟨hsecN, htok⟩, hargsOk⟩, hsufOk⟩ := hok
  rw [hc] at htok
  simp only [Option.getD_some] at htok
  simp only [cleanCmdTok, Bool.and_eq_true] at htok
  obtain ⟨⟨⟨⟨⟨hcne, hcall0⟩, hchw0⟩, hclw0⟩, hclt0⟩, hcsub0⟩ := htok
  simp only [cleanCmdArgs, Bool.and_eq_true] at hargsOk
  obtain ⟨⟨hat0, _haall0⟩, hasub0⟩ := hargsOk
  have hc0 : c ≠ [] := by
    intro he
    rw [he] at hcne
    simp at hcne
  have hcall : ∀ ch ∈ c, isSpTab ch = false ∧ ch ≠ '#' ∧ ch ≠ ' ' := by
    intro ch hch
    have hx := List.all_eq_true.mp hcall0 ch hch
    simp only [Bool.and_eq_true, Bool.not_eq_true'] at hx
    obtain ⟨⟨⟨h1, h2⟩, h3⟩, _⟩ := hx
    exact ⟨h1, by simpa using h2, by simpa using h3⟩
  have hchw : isWs (c.headD 'x') = false := by simpa using hchw0
  have hclw : isWs (c.getLastD 'x') = false := by simpa using hclw0
  have hclt : c.headD 'x' ≠ '<' := by simpa using hclt0
  have hcsub : hasSub c (str "</") = false := by simpa using hcsub0
  have hat : trim d.args = d.args := by simpa using hat0
  have hanh : ∀ ch ∈ d.args, ch ≠ '#' := by
    intro ch hch
    have hx := List.all_eq_true.mp _haall0 ch hch
    simp only [Bool.and_eq_true, Bool.not_eq_true'] at hx
    simpa using hx.1
  have hasub : hasSub d.args (str "</") = false := by simpa using hasub0
  have hps := paddedOf_shape d hsufOk
  have hpadOr : paddedOf d = []
      ∨ ∃ sfx, paddedOf d = ' ' :: sfx ∧ sfx ≠ [] ∧ isWs (sfx.getLastD 'x') = false := by
    rcases hps with h | ⟨sfx, h1, h2, _, h4, _, _⟩
    · exact Or.inl h
    · exact Or.inr ⟨sfx, h1, h2, h4⟩
  have hpadHash : paddedOf d = []
      ∨ ∃ sfx, paddedOf d = ' ' :: sfx ∧ sfx.headD 'x' = '#' := by
    rcases hps with h | ⟨sfx, h1, _, h3, _, _, _⟩
    · exact Or.inl h
    · exact Or.inr ⟨sfx, h1, h3⟩
  have hpadSub : hasSub (paddedOf d) (str "</") = false := by
    rcases hps with h | ⟨sfx, h1, _, _, _, _, h6⟩
    · rw [h]; decide
    · rw [h1]
      have hstr : str "</" = '<' :: ['/'] := rfl
      rw [hstr]
      exact hasSub_cons_false (by decide) (by rw [← hstr]; exact h6)
  have hpadHead : (paddedOf d).head? = none ∨ (paddedOf d).head? = some ' ' := by
    rcases hps with h | ⟨sfx, h1, _, _, _, _, _⟩
    · rw [h]; exact Or.inl rfl
    · rw [h1]; exact Or.inr rfl
  have hts : hasSub (' ' :: (d.args ++ paddedOf d)) (str "</") = false := by
    have hstr : str "</" = '<' :: ['/'] := rfl
    rw [hstr]
    apply hasSub_cons_false (by decide)
    apply hasSub2_append_false
    · rw [show ('<' :: ['/'] : Str) = str "</" from rfl]
      exact hasub
    · rintro ⟨hgl, hh⟩
      rcases hpadHead with h | h <;> rw [h] at hh
      · cases hh
      · exact absurd (Option.some_inj.mp hh) (by decide)
    · rw [show ('<' :: ['/'] : Str) = str "</" from rfl]
      exact hpadSub
  by_cases hemp : (d.args ++ paddedOf d).isEmpty
  · obtain ⟨hae, hpe⟩ := List.append_eq_nil.mp (List.isEmpty_iff.mp hemp)
    have hline2 : l = indentRepeat depth ++ (c ++ [' ']) := by
      rw [hl, hae, hpe]
      simp
    have htrim : trim l = c := by
      rw [hline2, trim_append_ws_left (indentRepeat_all_ws depth),
        trim_token_append c [' '] hc0 hchw hclw]
      have : List.rdropWhile isWs [' '] = [] := by decide
      rw [this, List.append_nil]
    have hshape := mkNData_cmd_shape c [] hc0 hcall hchw hclw hclt hcsub
      (Or.inl rfl) (by decide)
    simp only [List.append_nil] at hshape
    obtain ⟨ho, hcl, hmk⟩ := hshape
    refine ⟨mkNData c, ?_, ?_, ?_, ?_⟩
    · rw [pstep_core st l c htrim hc0]
      exact treeStep_add st c ho hcl
    · rw [hmk]
    · rw [hmk]
    · rw [hmk, hae]
      show trim (List.takeWhile notHash (List.dropWhile isSpTab
          (List.rdropWhile isWs (List.takeWhile notHash [])))) = []
      decide
  · have hline2 : l = indentRepeat depth ++ (c ++ (' ' :: (d.args ++ paddedOf d))) := by
      rw [hl]
    have hcore0 : trim (c ++ (' ' :: (d.args ++ paddedOf d)))
        = c ++ (' ' :: (d.args ++ paddedOf d)) := by
      rw [trim_token_append c _ hc0 hchw hclw, rdrop_tail _ _ hat hpadOr]
      rw [Bool.eq_false_iff.mpr hemp]
      simp
    have htrim : trim l = c ++ (' ' :: (d.args ++ paddedOf d)) := by
      rw [hline2, trim_append_ws_left (indentRepeat_all_ws depth), hcore0]
    have hshape := mkNData_cmd_shape c (' ' :: (d.args ++ paddedOf d)) hc0 hcall
      hchw hclw hclt hcsub (Or.inr ⟨d.args ++ paddedOf d, rfl⟩) hts
    obtain ⟨ho, hcl, hmk⟩ := hshape
    refine ⟨mkNData (c ++ (' ' :: (d.args ++ paddedOf d))), ?_, ?_, ?_, ?_⟩
    · rw [pstep_core st l _ htrim (by simp)]
      exact treeStep_add st _ ho hcl
    · rw [hmk]
    · rw [hmk]
    · rw [hmk]
      show trim (((List.rdropWhile isWs
          ((' ' :: (d.args ++ paddedOf d)).takeWhile notHash)).dropWhile
        isSpTab).takeWhile notHash) = d.args
      exact argsBack d.args (paddedOf d) hat hanh hpadHash

/-- A dumped close-tag line re-parses as a close step, unconditionally. -/
theorem pstep_close_line (st : PState) (depth : Nat) (s : Str) :
    pstep st (indentRepeat depth ++ '<' :: '/' :: s ++ ['>']) = closeStep st := by
  obtain ⟨ht, ho, hc⟩ := closeLine_shape s
  have hform : indentRepeat depth ++ '<' :: '/' :: s ++ ['>']
      = indentRepeat depth ++ ('<' :: '/' :: s ++ ['>']) := by simp
  have htrim : trim (indentRepeat depth ++ '<' :: '/' :: s ++ ['>'])
      = '<' :: '/' :: s ++ ['>'] := by
    rw [hform, trim_append_ws_left (indentRepeat_all_ws depth), ht]
  rw [pstep_core st _ _ htrim (by simp)]
  exact treeStep_close st _ ho hc

/-- A dumped comment line re-parses as an `add` of a cmd-less, section-less,
args-less node. -/
theorem pstep_comment_line (st : PState) (d : NData) (depth : Nat) (sfx l : Str)
    (hsfx : d.suffix = some sfx) (htr : truthyStr d.cmd = false)
    (hok : cmdDataOk d = true)
    (hl : l = indentRepeat depth ++ sfx) :
    ∃ d2, pstep st l = addStep st d2
      ∧ d2.cmd = none ∧ d2.sectionName = none ∧ d2.args = [] := by
  simp only [cmdDataOk, htr, Bool.false_eq_true, if_false, Bool.and_eq_true] at hok
  obtain ⟨⟨⟨⟨_h1, _h2⟩, _h3⟩, h4⟩, h5⟩ := hok
  rw [hsfx] at h4 h5
  have hne : sfx ≠ [] := by
    intro he
    rw [he] at h4
    simp at h4
  have hne' : sfx.isEmpty = false := by
    rcases sfx with _ | ⟨x, xs⟩
    · exact absurd rfl hne
    · rfl
  simp only [suffixOk, hne', Bool.false_or, Bool.and_eq_true] at h5
  obtain ⟨⟨⟨hh0, hlw0⟩, _hnl⟩, hsub0⟩ := h5
  have hh : sfx.headD 'x' = '#' := by simpa using hh0
  have hlw : isWs (sfx.getLastD 'x') = false := by simpa using hlw0
  have hsub : hasSub sfx (str "</") = false := by simpa using hsub0
  obtain ⟨htsfx, ho, hcl, _hsf, hmk⟩ := mkNData_comment_shape sfx hne hh hlw hsub
  have htrim : trim l = sfx := by
    rw [hl, trim_append_ws_left (indentRepeat_all_ws depth), htsfx]
  refine ⟨mkNData sfx, ?_, ?_, ?_, ?_⟩
  · rw [pstep_core st l sfx htrim hne]
    exact treeStep_add st sfx ho hcl
  · rw [hmk]
  · rw [hmk]
  · rw [hmk]

/-- A dumped section-open line re-parses as an `open` of a section with the
same name and args. -/
theorem pstep_open_line (st : PState) (d : NData) (depth : Nat) (s l : Str)
    (hs : d.sectionName = some s) (hok : sectionDataOk d = true)
    (hl : l = (if d.args.isEmpty = false then
            indentRepeat depth ++ '<' :: s ++ ' ' :: d.args ++ '>' :: paddedOf d
          else indentRepeat depth ++ '<' :: s ++ '>' :: paddedOf d)) :
    ∃ d2, pstep st l = openStep st d2
      ∧ d2.sectionName = some s ∧ d2.cmd = none ∧ d2.args = d.args := by
  simp only [sectionDataOk, Bool.and_eq_true] at hok
  obtain ⟨⟨⟨_hcmdN, hsecm⟩, hargsOk⟩, hsufOk⟩ := hok
  have hclean : cleanSecName s = true := by
    rw [hs] at hsecm
    exact hsecm
  simp only [cleanSecName, Bool.and_eq_true] at hclean
  obtain ⟨⟨hsne0, hsall0⟩, hshead0⟩ := hclean
  simp only [cleanSecArgs, Bool.and_eq_true] at hargsOk
  obtain ⟨hat0, haall0⟩ := hargsOk
  have hs0 : s ≠ [] := by
    intro he
    rw [he] at hsne0
    simp at hsne0
  have hsall : ∀ ch ∈ s, notSpGt ch = true := by
    intro ch hch
    have hx := List.all_eq_true.mp hsall0 ch hch
    simp only [Bool.and_eq_true] at hx
    exact hx.1
  have hshead : s.headD 'x' ≠ '/' := by simpa using hshead0
  have hat : trim d.args = d.args := by simpa using hat0
  have hagt : ∀ ch ∈ d.args, ch ≠ '>' := by
    intro ch hch
    have hx := List.all_eq_true.mp haall0 ch hch
    simp only [Bool.and_eq_true, Bool.not_eq_true'] at hx
    simpa using hx.1
  have hps := paddedOf_shape d hsufOk
  have hP : paddedOf d = []
      ∨ ∃ sfx, paddedOf d = ' ' :: sfx ∧ sfx ≠ [] ∧ isWs (sfx.getLastD 'x') = false := by
    rcases hps with h | ⟨sfx, h1, h2, _, h4, _, _⟩
    · exact Or.inl h
    · exact Or.inr ⟨sfx, h1, h2, h4⟩
  by_cases hargs : d.args.isEmpty
  · have hae : d.args = [] := List.isEmpty_iff.mp hargs
    have hshape := mkNData_open_shape s d.args [] (paddedOf d) hs0 hsall hshead
      (Or.inl ⟨hae, rfl⟩) hagt hat hP
    obtain ⟨htc, ho, hsec, hcmd, hargs2⟩ := hshape
    have hlx : l = indentRepeat depth ++ ('<' :: s ++ [] ++ '>' :: paddedOf d) := by
      rw [hl, if_neg (by rw [hargs]; simp)]
      simp
    have htrim : trim l = '<' :: s ++ [] ++ '>' :: paddedOf d := by
      rw [hlx, trim_append_ws_left (indentRepeat_all_ws depth), htc]
    refine ⟨mkNData ('<' :: s ++ [] ++ '>' :: paddedOf d), ?_, hsec, hcmd, ?_⟩
    · rw [pstep_core st l _ htrim (by simp)]
      exact treeStep_open st _ ho
    · rw [hargs2]
  · have hane : d.args ≠ [] := by
      intro he
      rw [he] at hargs
      exact hargs rfl
    have hshape := mkNData_open_shape s d.args (' ' :: d.args) (paddedOf d) hs0
      hsall hshead (Or.inr ⟨hane, rfl⟩) hagt hat hP
    obtain ⟨htc, ho, hsec, hcmd, hargs2⟩ := hshape
    have hlx : l = indentRepeat depth ++ ('<' :: s ++ ' ' :: d.args ++ '>' :: paddedOf d) := by
      rw [hl, if_pos (Bool.eq_false_iff.mpr hargs)]
      simp
    have hform : ('<' :: s ++ ' ' :: d.args ++ '>' :: paddedOf d)
        = '<' :: s ++ (' ' :: d.args) ++ '>' :: paddedOf d := by simp
    have htrim : trim l = '<' :: s ++ (' ' :: d.args) ++ '>' :: paddedOf d := by
      rw [hlx, trim_append_ws_left (indentRepeat_all_ws depth), hform, htc]
    refine ⟨mkNData ('<' :: s ++ (' ' :: d.args) ++ '>' :: paddedOf d), ?_, hsec,
      hcmd, ?_⟩
    · rw [pstep_core st l _ htrim (by simp)]
      exact treeStep_open st _ ho
    · rw [hargs2]

theorem appendTop_nilns (st : PState) : appendTop st [] = st := by
  obtain ⟨rk, stk, det⟩ := st
  cases stk with
  | nil => simp [appendTop]
  | cons f fs => simp [appendTop]

theorem appendTop_holeInv {st : PState} (ns : List NodeV)
    (h : st.stack = [] → Slot.hole ∉ st.rootKids) :
    (appendTop st ns).stack = [] → Slot.hole ∉ (appendTop st ns).rootKids := by
  obtain ⟨rk, stk, det⟩ := st
  cases stk with
  | cons f fs => intro hc; cases hc
  | nil =>
    intro _
    show Slot.hole ∉ rk ++ ns.map Slot.node
    intro hm
    rcases List.mem_append.mp hm with h1 | h2
    · exact h rfl h1
    · rcases List.mem_map.mp h2 with ⟨x, _, hx⟩
      cases hx

theorem addStep_eq_appendTop (st : PState) (d : NData) (hdet : st.det = none) :
    addStep st d = appendTop st [NodeV.mk d []] := by
  obtain ⟨rk, stk, det⟩ := st
  cases hdet
  cases stk with
  | nil => rfl
  | cons f fs => rfl

theorem openStep_nil_stack {rk : List Slot} (d : NData) :
    openStep (⟨rk, [], none⟩ : PState) d
      = ⟨rk ++ [Slot.hole], [⟨d, []⟩], none⟩ := rfl

theorem openStep_cons_stack {rk : List Slot} {f : Frame} {fs : List Frame}
    (d : NData) :
    openStep (⟨rk, f :: fs, none⟩ : PState) d
      = ⟨rk, ⟨d, []⟩ :: f :: fs, none⟩ := rfl

theorem closeStep_two {rk : List Slot} {f g : Frame} {fs : List Frame} :
    closeStep (⟨rk, f :: g :: fs, none⟩ : PState)
      = ⟨rk, { g with kids := g.kids ++ [closeFrame f] } :: fs, none⟩ := rfl

theorem closeStep_one {rk : List Slot} {f : Frame} :
    closeStep (⟨rk, [f], none⟩ : PState)
      = ⟨fillHole rk (closeFrame f), [], none⟩ := rfl

/-- Re-parsing the dump of a list of well-formed nodes appends, at the current
insertion point, a list of nodes with the same skeleton (same `cmd`, section
name, `args` and nesting). -/
theorem dump_reparse (N : Nat) :
    ∀ (ns : List NodeV), sizeL ns ≤ N → WFList ns = true →
    ∀ (depth : Nat) (st : PState), st.det = none →
      (st.stack = [] → Slot.hole ∉ st.rootKids) →
      ∃ ns2, pfold (dumpLinesList ns depth) st = appendTop st ns2
        ∧ skelList ns2 = skelList ns := by
  induction N using Nat.strong_induction_on with
  | _ N IH =>
  intro ns hsize hwf depth st hdet hhole
  rcases ns with _ | ⟨n, rest⟩
  · exact ⟨[], by rw [dumpLinesList_nil]; exact (appendTop_nilns st).symm, rfl⟩
  rcases n with ⟨d, kids⟩
  have hsz : sizeL (NodeV.mk d kids :: rest) = (1 + sizeL kids) + sizeL rest := rfl
  have hltrest : sizeL rest < N := by omega
  have hltkids : sizeL kids < N := by omega
  have hwf2 : WFNode (NodeV.mk d kids) = true ∧ WFList rest = true := by
    simp only [WFList, Bool.and_eq_true] at hwf
    exact hwf
  obtain ⟨hwfn, hwfrest⟩ := hwf2
  rw [dumpLinesList_cons, pfold_append]
  by_cases hcmd : truthyStr d.cmd
  · -- a directive node: one line, re-adding an equal-skeleton flat node
    have hwfn2 : kids.isEmpty = true ∧ cmdDataOk d = true := by
      simp only [WFNode, hcmd, if_true, Bool.and_eq_true] at hwfn
      exact hwfn
    obtain ⟨hke, hdok⟩ := hwfn2
    have hkids : kids = [] := List.isEmpty_iff.mp hke
    rcases hdc : d.cmd with _ | c
    · rw [hdc] at hcmd
      exact absurd hcmd (by decide)
    have hsecN : d.sectionName = none := by
      have h := hdok
      simp only [cmdDataOk, hcmd, if_true, Bool.and_eq_true] at h
      exact Option.isNone_iff_eq_none.mp h.1.1.1
    obtain ⟨d2, hstep, hd2c, hd2s, hd2a⟩ :=
      pstep_cmd_line st d depth c
        (indentRepeat depth ++ c ++ ' ' :: d.args ++ paddedOf d)
        hdc hcmd hdok (by simp)
    have hnode : pfold (dumpLines (NodeV.mk d kids) depth) st
        = appendTop st [NodeV.mk d2 []] := by
      rw [dumpLines_cmd d kids depth c hdc hcmd]
      show pstep st (indentRepeat depth ++ c ++ ' ' :: d.args ++ paddedOf d) = _
      rw [hstep, addStep_eq_appendTop st d2 hdet]
    obtain ⟨rest2, hrest, hskr⟩ := IH (sizeL rest) hltrest rest le_rfl hwfrest
      depth (appendTop st [NodeV.mk d2 []])
      (by rw [appendTop_det]; exact hdet)
      (appendTop_holeInv _ hhole)
    refine ⟨NodeV.mk d2 [] :: rest2, ?_, ?_⟩
    · rw [hnode, hrest]
      exact appendTop_append st [NodeV.mk d2 []] rest2
    · show skel (NodeV.mk d2 []) :: skelList rest2
          = skel (NodeV.mk d kids) :: skelList rest
      rw [hskr]
      congr 1
      show Skel.mk d2.cmd d2.sectionName d2.args (skelList [])
          = Skel.mk d.cmd d.sectionName d.args (skelList kids)
      rw [hd2c, hd2s, hd2a, hdc, hsecN, hkids]
  · have hcmdF : truthyStr d.cmd = false := Bool.eq_false_iff.mpr hcmd
    by_cases hsec : truthyStr d.sectionName
    · -- a section node: open line, children, close line
      have hwfn2 : sectionDataOk d = true ∧ WFList kids = true := by
        simp only [WFNode, hcmdF, Bool.false_eq_true, if_false, hsec, if_true,
          Bool.and_eq_true] at hwfn
        exact hwfn
      obtain ⟨hsdok, hwfkids⟩ := hwfn2
      rcases hss : d.sectionName with _ | s
      · rw [hss] at hsec
        exact absurd hsec (by decide)
      have hsd := hsdok
      simp only [sectionDataOk, Bool.and_eq_true] at hsd
      have hcmdN : d.cmd = none := Option.isNone_iff_eq_none.mp hsd.1.1.1
      have hcleanS : cleanSecName s = true := by
        have h := hsd.1.1.2
        rw [hss] at h
        exact h
      have hshead : (s.headD 'x' == '/') = false := by
        simp only [cleanSecName, Bool.and_eq_true] at hcleanS
        simpa using hcleanS.2
      rw [dumpLines_section d kids depth s hcmdF hss hsec hshead]
      rw [pfold_cons, pfold_append]
      obtain ⟨d2, hopen, hd2s, hd2c, hd2a⟩ :=
        pstep_open_line st d depth s _ hss hsdok rfl
      rw [hopen]
      obtain ⟨rk, stk, det⟩ := st
      cases hdet
      cases stk with
      | nil =>
        rw [openStep_nil_stack]
        obtain ⟨kids2, hk, hks⟩ := IH (sizeL kids) hltkids kids le_rfl hwfkids
          (depth + 1) ⟨rk ++ [Slot.hole], [⟨d2, []⟩], none⟩ rfl
          (fun h => nomatch h)
        rw [hk]
        have hat : appendTop (⟨rk ++ [Slot.hole], [⟨d2, []⟩], none⟩ : PState) kids2
            = ⟨rk ++ [Slot.hole], [⟨d2, kids2⟩], none⟩ := rfl
        rw [hat]
        have hclose : pfold [indentRepeat depth ++ '<' :: '/' :: s ++ ['>']]
            (⟨rk ++ [Slot.hole], [⟨d2, kids2⟩], none⟩ : PState)
            = ⟨rk ++ [Slot.node (NodeV.mk d2 kids2)], [], none⟩ := by
          show pstep (⟨rk ++ [Slot.hole], [⟨d2, kids2⟩], none⟩ : PState)
              (indentRepeat depth ++ '<' :: '/' :: s ++ ['>']) = _
          rw [pstep_close_line, closeStep_one,
            fillHole_append_holeFree _ (hhole rfl)]
          rfl
        rw [hclose]
        obtain ⟨rest2, hrest, hskr⟩ := IH (sizeL rest) hltrest rest le_rfl
          hwfrest depth ⟨rk ++ [Slot.node (NodeV.mk d2 kids2)], [], none⟩ rfl
          (by
            intro _
            intro hm
            rcases List.mem_append.mp hm with h1 | h2
            · exact hhole rfl h1
            · rcases List.mem_cons.mp h2 with h3 | h3
              · cases h3
              · cases h3)
        refine ⟨NodeV.mk d2 kids2 :: rest2, ?_, ?_⟩
        · rw [hrest]
          show appendTop (⟨rk ++ [Slot.node (NodeV.mk d2 kids2)], [], none⟩ : PState)
              rest2 = _
          rw [appendTop_nil_stack _ rfl, appendTop_nil_stack _ rfl]
          show (⟨(rk ++ [Slot.node (NodeV.mk d2 kids2)]) ++ rest2.map Slot.node,
              [], none⟩ : PState)
            = ⟨rk ++ (NodeV.mk d2 kids2 :: rest2).map Slot.node, [], none⟩
          rw [List.map_cons, List.append_assoc]
          rfl
        · show skel (NodeV.mk d2 kids2) :: skelList rest2
              = skel (NodeV.mk d kids) :: skelList rest
          rw [hskr]
          congr 1
          show Skel.mk d2.cmd d2.sectionName d2.args (skelList kids2)
              = Skel.mk d.cmd d.sectionName d.args (skelList kids)
          rw [hd2c, hd2s, hd2a, hcmdN, hss, hks]
      | cons f fs =>
        rw [openStep_cons_stack]
        obtain ⟨kids2, hk, hks⟩ := IH (sizeL kids) hltkids kids le_rfl hwfkids
          (depth + 1) ⟨rk, ⟨d2, []⟩ :: f :: fs, none⟩ rfl
          (fun h => nomatch h)
        rw [hk]
        have hat : appendTop (⟨rk, ⟨d2, []⟩ :: f :: fs, none⟩ : PState) kids2
            = ⟨rk, ⟨d2, kids2⟩ :: f :: fs, none⟩ := rfl
        rw [hat]
        have hclose : pfold [indentRepeat depth ++ '<' :: '/' :: s ++ ['>']]
            (⟨rk, ⟨d2, kids2⟩ :: f :: fs, none⟩ : PState)
            = appendTop (⟨rk, f :: fs, none⟩ : PState) [NodeV.mk d2 kids2] := by
          show pstep (⟨rk, ⟨d2, kids2⟩ :: f :: fs, none⟩ : PState)
              (indentRepeat depth ++ '<' :: '/' :: s ++ ['>']) = _
          rw [pstep_close_line, closeStep_two]
          rfl
        rw [hclose]
        obtain ⟨rest2, hrest, hskr⟩ := IH (sizeL rest) hltrest rest le_rfl
          hwfrest depth
          (appendTop (⟨rk, f :: fs, none⟩ : PState) [NodeV.mk d2 kids2])
          (by rw [appendTop_det])
          (appendTop_holeInv _ (fun h => nomatch h))
        refine ⟨NodeV.mk d2 kids2 :: rest2, ?_, ?_⟩
        · rw [hrest]
          exact appendTop_append (⟨rk, f :: fs, none⟩ : PState)
            [NodeV.mk d2 kids2] rest2
        · show skel (NodeV.mk d2 kids2) :: skelList rest2
              = skel (NodeV.mk d kids) :: skelList rest
          rw [hskr]
          congr 1
          show Skel.mk d2.cmd d2.sectionName d2.args (skelList kids2)
              = Skel.mk d.cmd d.sectionName d.args (skelList kids)
          rw [hd2c, hd2s, hd2a, hcmdN, hss, hks]
    · -- a comment node: one line, re-adding an equal-skeleton flat node
      have hsecF : truthyStr d.sectionName = false := Bool.eq_false_iff.mpr hsec
      have hwfn2 : kids.isEmpty = true ∧ cmdDataOk d = true := by
        simp only [WFNode, hcmdF, hsecF, Bool.false_eq_true, if_false,
          Bool.and_eq_true] at hwfn
        exact hwfn
      obtain ⟨hke, hdok⟩ := hwfn2
      have hkids : kids = [] := List.isEmpty_iff.mp hke
      have h := hdok
      simp only [cmdDataOk, hcmdF, Bool.false_eq_true, if_false,
        Bool.and_eq_true] at h
      obtain ⟨⟨⟨⟨h1, h2⟩, h3⟩, h4⟩, _h5⟩ := h
      have hcmdN : d.cmd = none := Option.isNone_iff_eq_none.mp h1
      have hsecN : d.sectionName = none := Option.isNone_iff_eq_none.mp h2
      have hargsN : d.args = [] := List.isEmpty_iff.mp h3
      rcases hds : d.suffix with _ | sfx
      · rw [hds] at h4
        simp at h4
      have hsfne : sfx.isEmpty = false := by
        rw [hds] at h4
        simpa using h4
      obtain ⟨d2, hstep, hd2c, hd2s, hd2a⟩ :=
        pstep_comment_line st d depth sfx (indentRepeat depth ++ sfx)
          hds hcmdF hdok rfl
      have hnode : pfold (dumpLines (NodeV.mk d kids) depth) st
          = appendTop st [NodeV.mk d2 []] := by
        rw [dumpLines_comment d kids depth sfx hcmdF hsecF hds hsfne, hkids,
          dumpLinesList_nil]
        show pstep st (indentRepeat depth ++ sfx) = _
        rw [hstep, addStep_eq_appendTop st d2 hdet]
      obtain ⟨rest2, hrest, hskr⟩ := IH (sizeL rest) hltrest rest le_rfl hwfrest
        depth (appendTop st [NodeV.mk d2 []])
        (by rw [appendTop_det]; exact hdet)
        (appendTop_holeInv _ hhole)
      refine ⟨NodeV.mk d2 [] :: rest2, ?_, ?_⟩
      · rw [hnode, hrest]
        exact appendTop_append st [NodeV.mk d2 []] rest2
      · show skel (NodeV.mk d2 []) :: skelList rest2
            = skel (NodeV.mk d kids) :: skelList rest
        rw [hskr]
        congr 1
        show Skel.mk d2.cmd d2.sectionName d2.args (skelList [])
            = Skel.mk d.cmd d.sectionName d.args (skelList kids)
        rw [hd2c, hd2s, hd2a, hcmdN, hsecN, hargsN, hkids]

theorem noNlStr_of_all {p : Char → Bool} {s : Str}
    (h : s.all p = true) (himp : ∀ ch, p ch = true → (ch == '\n') = false) :
    noNlStr s = true := by
  apply List.all_eq_true.mpr
  intro ch hch
  have h1 := List.all_eq_true.mp h ch hch
  have h2 := himp ch h1
  simp [h2]

theorem noNlStr_cons {c : Char} (x : Str) (hc : (c == '\n') = false) :
    noNlStr (c :: x) = noNlStr x := by
  simp [noNlStr, hc]

theorem noNl_cleanCmdTok {c : Str} (h : cleanCmdTok c = true) :
    noNlStr c = true := by
  simp only [cleanCmdTok, Bool.and_eq_true] at h
  refine noNlStr_of_all h.1.1.1.1.2 ?_
  intro ch hch
  simp only [Bool.and_eq_true] at hch
  simpa using hch.2

theorem noNl_cmdArgs {a : Str} (h : cleanCmdArgs a = true) :
    noNlStr a = true := by
  simp only [cleanCmdArgs, Bool.and_eq_true] at h
  refine noNlStr_of_all h.1.2 ?_
  intro ch hch
  simp only [Bool.and_eq_true] at hch
  simpa using hch.2

theorem noNl_secName {s : Str} (h : cleanSecName s = true) :
    noNlStr s = true := by
  simp only [cleanSecName, Bool.and_eq_true] at h
  refine noNlStr_of_all h.1.2 ?_
  intro ch hch
  simp only [Bool.and_eq_true] at hch
  simpa using hch.2

theorem noNl_secArgs {a : Str} (h : cleanSecArgs a = true) :
    noNlStr a = true := by
  simp only [cleanSecArgs, Bool.and_eq_true] at h
  refine noNlStr_of_all h.2 ?_
  intro ch hch
  simp only [Bool.and_eq_true] at hch
  simpa using hch.2

theorem noNl_suffix {sfx : Str} (h : suffixOk (some sfx) = true) :
    noNlStr sfx = true := by
  simp only [suffixOk] at h
  by_cases he : sfx.isEmpty
  · have he2 : sfx = [] := List.isEmpty_iff.mp he
    subst he2
    rfl
  · rw [Bool.eq_false_iff.mpr he] at h
    simp only [Bool.false_or, Bool.and_eq_true] at h
    exact h.1.2

theorem noNl_paddedOf {d : NData} (h : suffixOk d.suffix = true) :
    noNlStr (paddedOf d) = true := by
  rcases hsfx : d.suffix with _ | sfx
  · rw [hsfx] at h
    exact absurd h (by simp [suffixOk])
  · rw [hsfx] at h
    have hp : paddedOf d = if sfx.isEmpty = true then [] else ' ' :: sfx := by
      unfold paddedOf
      rw [hsfx]
    rw [hp]
    by_cases he : sfx.isEmpty
    · rw [if_pos he]
      rfl
    · rw [if_neg he, noNlStr_cons _ (by decide)]
      exact noNl_suffix h

/-- Every line `dump` emits for a well-formed node list is newline-free, so
the dump joins and re-splits losslessly. -/
theorem dump_noNl (N : Nat) :
    ∀ ns, sizeL ns ≤ N → WFList ns = true →
    ∀ depth l, l ∈ dumpLinesList ns depth → noNlStr l = true := by
  induction N using Nat.strong_induction_on with
  | _ N IH =>
  intro ns hsize hwf depth l hl
  rcases ns with _ | ⟨n, rest⟩
  · rw [dumpLinesList_nil] at hl
    cases hl
  rcases n with ⟨d, kids⟩
  have hsz : sizeL (NodeV.mk d kids :: rest) = (1 + sizeL kids) + sizeL rest := rfl
  have hltrest : sizeL rest < N := by omega
  have hltkids : sizeL kids < N := by omega
  have hwf2 : WFNode (NodeV.mk d kids) = true ∧ WFList rest = true := by
    simp only [WFList, Bool.and_eq_true] at hwf
    exact hwf
  obtain ⟨hwfn, hwfrest⟩ := hwf2
  rw [dumpLinesList_cons] at hl
  rcases List.mem_append.mp hl with hl1 | hl2
  · by_cases hcmd : truthyStr d.cmd
    · have hwfn2 : kids.isEmpty = true ∧ cmdDataOk d = true := by
        simp only [WFNode, hcmd, if_true, Bool.and_eq_true] at hwfn
        exact hwfn
      obtain ⟨_, hdok⟩ := hwfn2
      have hd := hdok
      simp only [cmdDataOk, hcmd, if_true, Bool.and_eq_true] at hd
      rcases hdc : d.cmd with _ | c
      · rw [hdc] at hcmd
        exact absurd hcmd (by decide)
      have htokOk : cleanCmdTok c = true := by
        have h := hd.1.1.2
        rw [hdc] at h
        simpa using h
      rw [dumpLines_cmd d kids depth c hdc hcmd, List.mem_singleton] at hl1
      subst hl1
      simp only [noNlStr_append, Bool.and_eq_true]
      refine ⟨⟨⟨noNl_indentRepeat depth, noNl_cleanCmdTok htokOk⟩, ?_⟩,
        noNl_paddedOf hd.2⟩
      rw [noNlStr_cons _ (by decide)]
      exact noNl_cmdArgs hd.1.2
    · have hcmdF : truthyStr d.cmd = false := Bool.eq_false_iff.mpr hcmd
      by_cases hsec : truthyStr d.sectionName
      · have hwfn2 : sectionDataOk d = true ∧ WFList kids = true := by
          simp only [WFNode, hcmdF, Bool.false_eq_true, if_false, hsec, if_true,
            Bool.and_eq_true] at hwfn
          exact hwfn
        obtain ⟨hsdok, hwfkids⟩ := hwfn2
        rcases hss : d.sectionName with _ | s
        · rw [hss] at hsec
          exact absurd hsec (by decide)
        have hsd := hsdok
        simp only [sectionDataOk, Bool.and_eq_true] at hsd
        have hcleanS : cleanSecName s = true := by
          have h := hsd.1.1.2
          rw [hss] at h
          exact h
        have hshead : (s.headD 'x' == '/') = false := by
          simp only [cleanSecName, Bool.and_eq_true] at hcleanS
          simpa using hcleanS.2
        rw [dumpLines_section d kids depth s hcmdF hss hsec hshead] at hl1
        rcases List.mem_cons.mp hl1 with hopen | hrest2
        · subst hopen
          by_cases hargs : d.args.isEmpty = false
          · rw [if_pos hargs]
            simp only [noNlStr_append, Bool.and_eq_true]
            refine ⟨⟨⟨noNl_indentRepeat depth, ?_⟩, ?_⟩, ?_⟩
            · rw [noNlStr_cons _ (by decide)]
              exact noNl_secName hcleanS
            · rw [noNlStr_cons _ (by decide)]
              exact noNl_secArgs hsd.1.2
            · rw [noNlStr_cons _ (by decide)]
              exact noNl_paddedOf hsd.2
          · rw [if_neg hargs]
            simp only [noNlStr_append, Bool.and_eq_true]
            refine ⟨⟨noNl_indentRepeat depth, ?_⟩, ?_⟩
            · rw [noNlStr_cons _ (by decide)]
              exact noNl_secName hcleanS
            · rw [noNlStr_cons _ (by decide)]
              exact noNl_paddedOf hsd.2
        · rcases List.mem_append.mp hrest2 with hkid | hclose
          · exact IH (sizeL kids) hltkids kids le_rfl hwfkids (depth + 1) l hkid
          · rw [List.mem_singleton] at hclose
            subst hclose
            simp only [noNlStr_append, Bool.and_eq_true]
            refine ⟨⟨noNl_indentRepeat depth, ?_⟩, by decide⟩
            rw [noNlStr_cons _ (by decide), noNlStr_cons _ (by decide)]
            exact noNl_secName hcleanS
      · have hsecF : truthyStr d.sectionName = false := Bool.eq_false_iff.mpr hsec
        have hwfn2 : kids.isEmpty = true ∧ cmdDataOk d = true := by
          simp only [WFNode, hcmdF, hsecF, Bool.false_eq_true, if_false,
            Bool.and_eq_true] at hwfn
          exact hwfn
        obtain ⟨hke, hdok⟩ := hwfn2
        have hkids : kids = [] := List.isEmpty_iff.mp hke
        have hd := hdok
        simp only [cmdDataOk, hcmdF, Bool.false_eq_true, if_false,
          Bool.and_eq_true] at hd
        rcases hds : d.suffix with _ | sfx
        · have h4 := hd.1.2
          rw [hds] at h4
          simp at h4
        have hsfne : sfx.isEmpty = false := by
          have h4 := hd.1.2
          rw [hds] at h4
          simpa using h4
        rw [dumpLines_comment d kids depth sfx hcmdF hsecF hds hsfne, hkids,
          dumpLinesList_nil, List.mem_singleton] at hl1
        subst hl1
        simp only [noNlStr_append, Bool.and_eq_true]
        refine ⟨noNl_indentRepeat depth, ?_⟩
        have h5 := hd.2
        rw [hds] at h5
        exact noNl_suffix h5
  · exact IH (sizeL rest) hltrest rest le_rfl hwfrest depth l hl2

def WFSlot : Slot → Bool
  | Slot.node n => WFNode n
  | Slot.hole => true

def WFFrame (f : Frame) : Bool := sectionDataOk f.data && WFList f.kids

/-- Every accumulated node and every open frame of the parser state is
well-behaved. -/
def WFState (st : PState) : Bool :=
  st.rootKids.all WFSlot && st.stack.all WFFrame

/-- Where the root hole is: none when no top-level section is open, exactly
one — at the end — while one is. -/
def HoleInv (st : PState) : Prop :=
  match st.stack with
  | [] => Slot.hole ∉ st.rootKids
  | _ :: _ => ∃ rk0, st.rootKids = rk0 ++ [Slot.hole] ∧ Slot.hole ∉ rk0

theorem WFList_append (a b : List NodeV) :
    WFList (a ++ b) = (WFList a && WFList b) := by
  induction a with
  | nil => simp [WFList]
  | cons n a2 ih =>
    show WFList (n :: (a2 ++ b)) = _
    simp only [WFList, ih, Bool.and_assoc]

theorem WFNode_closeFrame {f : Frame} (h : WFFrame f = true) :
    WFNode (closeFrame f) = true := by
  simp only [WFFrame, Bool.and_eq_true] at h
  obtain ⟨hd, hk⟩ := h
  show WFNode (NodeV.mk f.data f.kids) = true
  have hsd := hd
  simp only [sectionDataOk, Bool.and_eq_true] at hsd
  have hcmdN : f.data.cmd = none := Option.isNone_iff_eq_none.mp hsd.1.1.1
  have htc : truthyStr f.data.cmd = false := by rw [hcmdN]; rfl
  rcases hss : f.data.sectionName with _ | s
  · have h2 := hsd.1.1.2
    rw [hss] at h2
    simp at h2
  · have h2 : cleanSecName s = true := by
      have h3 := hsd.1.1.2
      rw [hss] at h3
      exact h3
    have hsne : s.isEmpty = false := by
      simp only [cleanSecName, Bool.and_eq_true] at h2
      simpa using h2.1.1
    have hsec : truthyStr f.data.sectionName = true := by
      rw [hss]
      unfold truthyStr
      simp only []
      rw [hsne]
      rfl
    simp only [WFNode, htc, Bool.false_eq_true, if_false, hsec, if_true,
      Bool.and_eq_true]
    exact ⟨hd, hk⟩

theorem WFNode_flat {d : NData} (h : cmdDataOk d = true) :
    WFNode (NodeV.mk d []) = true := by
  by_cases hc : truthyStr d.cmd
  · simp only [WFNode, hc, if_true, Bool.and_eq_true]
    exact ⟨rfl, h⟩
  · have hcF : truthyStr d.cmd = false := Bool.eq_false_iff.mpr hc
    have h2 := h
    simp only [cmdDataOk, hcF, Bool.false_eq_true, if_false, Bool.and_eq_true] at h2
    have hsN : d.sectionName = none := Option.isNone_iff_eq_none.mp h2.1.1.1.2
    have hsF : truthyStr d.sectionName = false := by rw [hsN]; rfl
    simp only [WFNode, hcF, hsF, Bool.false_eq_true, if_false, Bool.and_eq_true]
    exact ⟨rfl, h⟩

/-- One good line preserves state well-formedness and the hole invariant. -/
theorem pstep_preserves (st : PState) (l : Str) (hg : GoodLine l = true)
    (hwf : WFState st = true) (hh : HoleInv st) :
    WFState (pstep st l) = true ∧ HoleInv (pstep st l) := by
  by_cases hb : (trim l).isEmpty
  · rw [show pstep st l = st from by unfold pstep; simp [hb]]
    exact ⟨hwf, hh⟩
  · have hb' : (trim l).isEmpty = false := Bool.eq_false_iff.mpr hb
    have hps : pstep st l = treeStep st (mkNData (trim l)) := by
      unfold pstep
      simp [hb]
    rw [hps]
    unfold GoodLine at hg
    rw [hb'] at hg
    simp only [Bool.false_or] at hg
    by_cases ho : isOpen (trim l)
    · have hsd : sectionDataOk (mkNData (trim l)) = true := by
        rw [if_pos ho] at hg
        exact hg
      rw [treeStep_open st _ ho]
      obtain ⟨rk, stk, det⟩ := st
      rcases det with _ | k
      · rcases stk with _ | ⟨f, fs⟩
        · rw [openStep_nil_stack]
          constructor
          · simp only [WFState, Bool.and_eq_true] at hwf ⊢
            constructor
            · rw [List.all_append]
              simp only [Bool.and_eq_true]
              exact ⟨hwf.1, by simp [WFSlot]⟩
            · show ([⟨mkNData (trim l), []⟩] : List Frame).all WFFrame = true
              simp [WFFrame, hsd, WFList]
          · exact ⟨rk, rfl, hh⟩
        · rw [openStep_cons_stack]
          constructor
          · simp only [WFState, Bool.and_eq_true] at hwf ⊢
            refine ⟨hwf.1, ?_⟩
            rw [List.all_cons]
            simp only [Bool.and_eq_true]
            exact ⟨by simp [WFFrame, hsd, WFList], hwf.2⟩
          · exact hh
      · rw [show openStep (⟨rk, stk, some k⟩ : PState) (mkNData (trim l))
            = ⟨rk, stk, some (k + 1)⟩ from rfl]
        exact ⟨hwf, hh⟩
    · by_cases hc : isClose (trim l)
      · rw [treeStep_close st _ (Bool.eq_false_iff.mpr ho) hc]
        obtain ⟨rk, stk, det⟩ := st
        rcases det with _ | k
        · rcases stk with _ | ⟨f, fs⟩
          · rw [show closeStep (⟨rk, [], none⟩ : PState) = ⟨rk, [], some 0⟩ from rfl]
            exact ⟨hwf, hh⟩
          · have hfwf : WFFrame f = true := by
              simp only [WFState, Bool.and_eq_true] at hwf
              have h2 := hwf.2
              rw [List.all_cons] at h2
              simp only [Bool.and_eq_true] at h2
              exact h2.1
            rcases fs with _ | ⟨g, gs⟩
            · rw [closeStep_one]
              obtain ⟨rk0, hrk, hnh⟩ := hh
              have hrk2 : rk = rk0 ++ [Slot.hole] := hrk
              subst hrk2
              rw [fillHole_append_holeFree _ hnh]
              constructor
              · simp only [WFState, Bool.and_eq_true] at hwf ⊢
                refine ⟨?_, rfl⟩
                rw [List.all_append]
                simp only [Bool.and_eq_true]
                constructor
                · have h1 := hwf.1
                  rw [List.all_append] at h1
                  simp only [Bool.and_eq_true] at h1
                  exact h1.1
                · show ([Slot.node (closeFrame f)]).all WFSlot = true
                  simp [WFSlot, WFNode_closeFrame hfwf]
              · show Slot.hole ∉ rk0 ++ [Slot.node (closeFrame f)]
                intro hm
                rcases List.mem_append.mp hm with h1 | h2
                · exact hnh h1
                · rcases List.mem_cons.mp h2 with h3 | h3 <;> cases h3
            · rw [closeStep_two]
              constructor
              · simp only [WFState, Bool.and_eq_true] at hwf ⊢
                refine ⟨hwf.1, ?_⟩
                have h2 := hwf.2
                rw [List.all_cons, List.all_cons] at h2
                simp only [Bool.and_eq_true] at h2
                rw [List.all_cons]
                simp only [Bool.and_eq_true]
                refine ⟨?_, h2.2.2⟩
                have hgwf := h2.2.1
                simp only [WFFrame, Bool.and_eq_true] at hgwf ⊢
                refine ⟨hgwf.1, ?_⟩
                rw [WFList_append]
                simp only [Bool.and_eq_true]
                refine ⟨hgwf.2, ?_⟩
                show WFList [closeFrame f] = true
                simp [WFList, WFNode_closeFrame hfwf]
              · exact hh
        · rw [show closeStep (⟨rk, stk, some k⟩ : PState)
              = ⟨rk, stk, some (k - 1)⟩ from rfl]
          exact ⟨hwf, hh⟩
      · have hcd : cmdDataOk (mkNData (trim l)) = true := by
          rw [if_neg ho, if_neg hc] at hg
          exact hg
        rw [treeStep_add st _ (Bool.eq_false_iff.mpr ho) (Bool.eq_false_iff.mpr hc)]
        obtain ⟨rk, stk, det⟩ := st
        rcases det with _ | k
        · rcases stk with _ | ⟨f, fs⟩
          · rw [show addStep (⟨rk, [], none⟩ : PState) (mkNData (trim l))
                = ⟨rk ++ [Slot.node (NodeV.mk (mkNData (trim l)) [])], [], none⟩
              from rfl]
            constructor
            · simp only [WFState, Bool.and_eq_true] at hwf ⊢
              refine ⟨?_, rfl⟩
              rw [List.all_append]
              simp only [Bool.and_eq_true]
              refine ⟨hwf.1, ?_⟩
              show ([Slot.node (NodeV.mk (mkNData (trim l)) [])]).all WFSlot = true
              simp [WFSlot, WFNode_flat hcd]
            · show Slot.hole ∉ rk ++ [Slot.node (NodeV.mk (mkNData (trim l)) [])]
              intro hm
              rcases List.mem_append.mp hm with h1 | h2
              · exact hh h1
              · rcases List.mem_cons.mp h2 with h3 | h3 <;> cases h3
          · rw [show addStep (⟨rk, f :: fs, none⟩ : PState) (mkNData (trim l))
                = ⟨rk, { f with kids := f.kids
                    ++ [NodeV.mk (mkNData (trim l)) []] } :: fs, none⟩ from rfl]
            constructor
            · simp only [WFState, Bool.and_eq_true] at hwf ⊢
              refine ⟨hwf.1, ?_⟩
              have h2 := hwf.2
              rw [List.all_cons] at h2
              simp only [Bool.and_eq_true] at h2
              rw [List.all_cons]
              simp only [Bool.and_eq_true]
              refine ⟨?_, h2.2⟩
              have hfwf := h2.1
              simp only [WFFrame, Bool.and_eq_true] at hfwf ⊢
              refine ⟨hfwf.1, ?_⟩
              rw [WFList_append]
              simp only [Bool.and_eq_true]
              refine ⟨hfwf.2, ?_⟩
              show WFList [NodeV.mk (mkNData (trim l)) []] = true
              simp [WFList, WFNode_flat hcd]
            · exact hh
        · rw [show addStep (⟨rk, stk, some k⟩ : PState) (mkNData (trim l))
              = ⟨rk, stk, some k⟩ from rfl]
          exact ⟨hwf, hh⟩

theorem pfold_preserves (ls : List Str) :
    ∀ st : PState, ls.all GoodLine = true → WFState st = true → HoleInv st →
      WFState (pfold ls st) = true ∧ HoleInv (pfold ls st) := by
  induction ls with
  | nil => exact fun st _ hwf hh => ⟨hwf, hh⟩
  | cons l rest ih =>
    intro st hg hwf hh
    rw [List.all_cons] at hg
    simp only [Bool.and_eq_true] at hg
    obtain ⟨hwf2, hh2⟩ := pstep_preserves st l hg.1 hwf hh
    rw [pfold_cons]
    exact ih (pstep st l) hg.2 hwf2 hh2

theorem slots_to_nodes (rk : List Slot) (hall : rk.all WFSlot = true)
    (hnh : Slot.hole ∉ rk) :
    ∃ K : List NodeV, rk = K.map Slot.node ∧ WFList K = true := by
  induction rk with
  | nil => exact ⟨[], rfl, rfl⟩
  | cons sl rest ih =>
    rw [List.all_cons] at hall
    simp only [Bool.and_eq_true] at hall
    obtain ⟨K, hK, hKwf⟩ := ih hall.2 (fun hm => hnh (List.mem_cons_of_mem sl hm))
    cases sl with
    | hole => exact absurd (List.mem_cons_self _ _) (fun h => hnh h)
    | node n =>
      refine ⟨n :: K, by rw [hK]; rfl, ?_⟩
      simp only [WFList, Bool.and_eq_true]
      exact ⟨hall.1, hKwf⟩

theorem WFNode_collapse : ∀ (fs : List Frame) (f : Frame),
    WFFrame f = true → fs.all WFFrame = true →
    WFNode (collapseStack f fs) = true := by
  intro fs
  induction fs with
  | nil => exact fun f hf _ => WFNode_closeFrame hf
  | cons g gs ih =>
    intro f hf hall
    rw [List.all_cons] at hall
    simp only [Bool.and_eq_true] at hall
    show WFNode (collapseStack { g with kids := g.kids ++ [closeFrame f] } gs) = true
    apply ih _ _ hall.2
    simp only [WFFrame, Bool.and_eq_true] at hall ⊢
    refine ⟨hall.1.1, ?_⟩
    rw [WFList_append]
    simp only [Bool.and_eq_true]
    refine ⟨hall.1.2, ?_⟩
    show WFList [closeFrame f] = true
    simp [WFList, WFNode_closeFrame hf]

theorem unwind_nodes (st : PState) (hwf : WFState st = true) (hh : HoleInv st) :
    ∃ K : List NodeV, unwindStack st.rootKids st.stack = K.map Slot.node
      ∧ WFList K = true := by
  obtain ⟨rk, stk, det⟩ := st
  simp only [WFState, Bool.and_eq_true] at hwf
  rcases stk with _ | ⟨f, fs⟩
  · exact slots_to_nodes rk hwf.1 hh
  · obtain ⟨rk0, hrk, hnh⟩ := hh
    have hrk2 : rk = rk0 ++ [Slot.hole] := hrk
    subst hrk2
    have hall0 : rk0.all WFSlot = true := by
      have h1 := hwf.1
      rw [List.all_append] at h1
      simp only [Bool.and_eq_true] at h1
      exact h1.1
    have hfr := hwf.2
    rw [List.all_cons] at hfr
    simp only [Bool.and_eq_true] at hfr
    have hcol : WFNode (collapseStack f fs) = true :=
      WFNode_collapse fs f hfr.1 hfr.2
    obtain ⟨K0, hK0, hK0wf⟩ := slots_to_nodes rk0 hall0 hnh
    refine ⟨K0 ++ [collapseStack f fs], ?_, ?_⟩
    · show fillHole (rk0 ++ [Slot.hole]) (collapseStack f fs) = _
      rw [fillHole_append_holeFree _ hnh, hK0, List.map_append]
      rfl
    · rw [WFList_append]
      simp only [Bool.and_eq_true]
      refine ⟨hK0wf, ?_⟩
      show WFList [collapseStack f fs] = true
      simp [WFList, hcol]

theorem textLineStep_eq_pstep (env : Env) (fuel : Nat) (inc : Bool)
    (hg : ∀ p, env.globSync p = []) (st : PState) (l : Str) :
    textLineStep env fuel inc st l = pstep st l := by
  by_cases hb : (trim l).isEmpty
  · simp [textLineStep, pstep, hb]
  · by_cases hi : inc && isIncludeName (mkNData (trim l))
    · simp only [textLineStep, pstep, hb, Bool.false_eq_true, if_false, hi,
        if_true]
      simp [textIncludeStep, hg, globGo]
    · simp [textLineStep, pstep, hb, hi]

theorem readTextE_eq_pfold (env : Env) (inc : Bool) (fuel : Nat) (text : Str)
    (hg : ∀ p, env.globSync p = []) :
    readTextE env inc fuel text
      = finalizeState (pfold (splitOnChar '\n' text) initPState) := by
  unfold readTextE pfold
  congr 1
  apply List.foldl_ext
  intro st l _
  exact textLineStep_eq_pstep env fuel inc hg st l

/-- C1 amended: the dump/re-parse round trip preserves directive names,
args and section nesting (`skel`) provided (a) no include glob matches — in
the source, resolved includes are spliced into the tree but their `Include`
line is also kept, so re-parsing the dump duplicates them — and (b) every
non-blank line classifies cleanly (`GoodLine`): in particular every line
`isOpen` accepts really carries a section name (`secOpenMatch` succeeds,
name not starting `/`) — a bare `<` opens a nameless section whose dump
drops the nesting. -/
theorem c1_round_trip (env : Env) (inc : Bool) (fuel fuel2 : Nat) (text : Str)
    (hg : ∀ p, env.globSync p = [])
    (hgood : (splitOnChar '\n' text).all GoodLine = true) :
    skel (readTextE env inc fuel2 (dump (readTextE env inc fuel text) 0))
      = skel (readTextE env inc fuel text) := by
  rw [readTextE_eq_pfold env inc fuel text hg]
  have hinit : WFState initPState = true := rfl
  have hinitH : HoleInv initPState := by
    show Slot.hole ∉ ([] : List Slot)
    simp
  obtain ⟨hwfF, hhF⟩ :=
    pfold_preserves (splitOnChar '\n' text) initPState hgood hinit hinitH
  obtain ⟨K, hK, hKwf⟩ :=
    unwind_nodes (pfold (splitOnChar '\n' text) initPState) hwfF hhF
  have hfin : finalizeState (pfold (splitOnChar '\n' text) initPState)
      = NodeV.mk rootData K := by
    unfold finalizeState
    rw [hK, List.map_map]
    rw [show (slotNode ∘ Slot.node) = id from rfl, List.map_id]
  rw [hfin]
  have hdump : dump (NodeV.mk rootData K) 0 = joinLines (dumpLinesList K 0) := by
    unfold dump
    rw [dumpLines_root]
  rw [hdump, readTextE_eq_pfold env inc fuel2 _ hg,
    splitOnChar_joinLines _
      (fun l hl => noNl_mem (dump_noNl (sizeL K) K le_rfl hKwf 0 l hl)),
    pfold_append]
  obtain ⟨K2, hK2, hK2skel⟩ := dump_reparse (sizeL K) K le_rfl hKwf 0 initPState
    rfl (fun _ hm => nomatch hm)
  rw [show ∀ x : PState, pfold [[]] x = x from fun x => rfl, hK2,
    appendTop_nil_stack _ rfl]
  have hfin2 : finalizeState
      { initPState with rootKids := initPState.rootKids ++ K2.map Slot.node }
      = NodeV.mk rootData K2 := by
    unfold finalizeState
    show NodeV.mk rootData ((unwindStack ([] ++ K2.map Slot.node) []).map slotNode)
        = _
    rw [List.nil_append]
    show NodeV.mk rootData ((K2.map Slot.node).map slotNode) = _
    rw [List.map_map, show (slotNode ∘ Slot.node) = id from rfl, List.map_id]
  rw [hfin2]
  show Skel.mk rootData.cmd rootData.sectionName rootData.args (skelList K2)
      = Skel.mk rootData.cmd rootData.sectionName rootData.args (skelList K)
  rw [hK2skel]

theorem c1_round_trip_witness :
    skel (readTextE emptyEnv true 1 (dump (readTextE emptyEnv true 1
        (str "<VirtualHost *:80>\n  ServerName example.com\n</VirtualHost>")) 0))
      = skel (readTextE emptyEnv true 1
        (str "<VirtualHost *:80>\n  ServerName example.com\n</VirtualHost>")) :=
  c1_round_trip emptyEnv true 1 1
    (str "<VirtualHost *:80>\n  ServerName example.com\n</VirtualHost>")
    (fun _ => rfl) (by decide)

/-- A file system for C1's include half: `inc.conf` exists, matches its own
glob and holds one directive. -/
def envC1 : Env :=
  { existsSync := fun _ => false
  , lstatIsDir := fun _ => none
  , globSync := fun p => if p == str "inc.conf" then [str "inc.conf"] else []
  , readFileLines := fun p =>
      if p == str "inc.conf" then some [str "Foo bar"] else none }

/-- C1 counterexample, both halves.  (a) A bare `<` line opens a section that
swallows the next line, but its parsed data has no section name, so `dump`
renders it as a blank line and the nesting is lost: the re-parse has 2 nodes
in its skeleton where the original has 3.  (b) With include resolution, the
`Include` line *and* the resolved content are both kept in the tree and in
its dump, so re-parsing the dump resolves the include again and duplicates
the content: 2 root children become 3. -/
theorem c1_round_trip_counterexample :
    (countSkel (skel (readTextE emptyEnv true 1 (str "<\nFoo bar"))) = 3
      ∧ countSkel (skel (readTextE emptyEnv true 1
          (dump (readTextE emptyEnv true 1 (str "<\nFoo bar")) 0))) = 2) ∧
    ((readTextE envC1 true 2 (str "Include inc.conf")).content.length = 2
      ∧ (readTextE envC1 true 2
          (dump (readTextE envC1 true 2 (str "Include inc.conf")) 0)).content.length
        = 3) :=
  ⟨⟨rfl, rfl⟩, ⟨rfl, rfl⟩⟩
